import Mathlib

/-!
Verification of the volumetric processing and segmentation engine of the
neuroscan-ai repository, as a shallow embedding in Lean 4.

Numeric samples (JavaScript `number`s and typed-array elements) are modelled
as exact rationals; JavaScript values that can also be the infinities
`Infinity` / `-Infinity` (the running min/max accumulators of the difference
engine, which start from `Infinity` and `-Infinity`) are modelled by
`WithBot (WithTop Rat)`.  `Math.floor` is `Int.floor`, `Math.round` is
`round` (both round half up, toward positive infinity), `Math.log` is
`Real.log`.  Typed arrays are modelled as `List Rat`; an out-of-bounds typed
array write is a no-op (as in JavaScript), an out-of-bounds read yields a
value that compares false under `> 0` (modelled by `List.getD _ 0`).
-/

set_option maxRecDepth 8000

namespace NeuroScan

/-- A JavaScript `number` that may be `Infinity` (`⊤`) or `-Infinity` (`⊥`). -/
abbrev JSNum : Type := WithBot (WithTop ℚ)

/-- Embeds a finite numeric value into `JSNum`. -/
def qn (q : ℚ) : JSNum := ((q : WithTop ℚ) : JSNum)

/-- The NIfTI header (`header` field), modelled by the only component the
engine reads or writes: the `datatypeCode` tag.  All other header fields are
opaque passthrough. -/
structure NiftiHeader where
  datatypeCode : ℤ
deriving DecidableEq, Repr

/-- `VolumeData` from `types.ts`: a flat numeric array plus dimensions and
the intensity range.  `min`/`max` are finite numbers here; the difference
engine, whose min/max can be infinite, returns a `DiffVolume` below. -/
structure VolumeData where
  header : NiftiHeader
  data : List ℚ
  dimensions : ℕ × ℕ × ℕ
  min : ℚ
  max : ℚ
deriving DecidableEq, Repr

/-- The object literal returned by `computeVolumeDifference`: same shape as
`VolumeData`, but its `min`/`max` are produced by running-minimum /
running-maximum loops starting from `Infinity` / `-Infinity`, so they are
`JSNum`s. -/
structure DiffVolume where
  header : NiftiHeader
  data : List ℚ
  dimensions : ℕ × ℕ × ℕ
  min : JSNum
  max : JSNum
deriving DecidableEq, Repr

/-- One step of the running-minimum loop `if (val < min) min = val`. -/
def jsMinStep (m : JSNum) (v : ℚ) : JSNum := if qn v < m then qn v else m

/-- One step of the running-maximum loop `if (val > max) max = val`. -/
def jsMaxStep (m : JSNum) (v : ℚ) : JSNum := if m < qn v then qn v else m

/-- `computeVolumeDifference` from `src/utils/imageProcessing.ts`:
returns `null` (`none`) when the lengths differ, otherwise the element-wise
difference `B[i] - A[i]` together with the exact running min/max of the
difference values (accumulators starting at `Infinity` / `-Infinity`). -/
def computeVolumeDifference (volA volB : VolumeData) : Option DiffVolume :=
  if volA.data.length ≠ volB.data.length then none
  else
    let diffData := List.zipWith (fun a b => b - a) volA.data volB.data
    some
      { header := { volA.header with datatypeCode := 16 }
        dimensions := volA.dimensions
        data := diffData
        min := diffData.foldl jsMinStep ⊤
        max := diffData.foldl jsMaxStep ⊥ }

/-! Generic facts about the running min/max folds. -/

lemma jsMin_foldl_le_init (l : List ℚ) (m : JSNum) : l.foldl jsMinStep m ≤ m := by
  induction l generalizing m with
  | nil => exact le_rfl
  | cons x l ih =>
    simp only [List.foldl_cons]
    refine le_trans (ih _) ?_
    unfold jsMinStep
    split <;> simp_all [le_of_lt]

lemma jsMin_foldl_le (l : List ℚ) (m : JSNum) :
    ∀ x ∈ l, l.foldl jsMinStep m ≤ qn x := by
  induction l generalizing m with
  | nil => simp
  | cons y l ih =>
    intro x hx
    rcases List.mem_cons.mp hx with h | h
    · subst h
      simp only [List.foldl_cons]
      refine le_trans (jsMin_foldl_le_init _ _) ?_
      unfold jsMinStep
      split <;> simp_all [le_of_not_lt]
    · exact ih _ x h

lemma jsMin_foldl_mem (l : List ℚ) (m : JSNum) :
    l.foldl jsMinStep m = m ∨ ∃ x ∈ l, l.foldl jsMinStep m = qn x := by
  induction l generalizing m with
  | nil => exact Or.inl rfl
  | cons y l ih =>
    simp only [List.foldl_cons]
    by_cases hy : qn y < m
    · rw [show jsMinStep m y = qn y from if_pos hy]
      rcases ih (qn y) with h | ⟨x, hx, h⟩
      · exact Or.inr ⟨y, List.mem_cons_self _ _, h⟩
      · exact Or.inr ⟨x, List.mem_cons_of_mem _ hx, h⟩
    · rw [show jsMinStep m y = m from if_neg hy]
      rcases ih m with h | ⟨x, hx, h⟩
      · exact Or.inl h
      · exact Or.inr ⟨x, List.mem_cons_of_mem _ hx, h⟩

lemma jsMax_foldl_ge_init (l : List ℚ) (m : JSNum) : m ≤ l.foldl jsMaxStep m := by
  induction l generalizing m with
  | nil => exact le_rfl
  | cons x l ih =>
    simp only [List.foldl_cons]
    refine le_trans ?_ (ih _)
    unfold jsMaxStep
    split <;> simp_all [le_of_lt]

lemma jsMax_foldl_ge (l : List ℚ) (m : JSNum) :
    ∀ x ∈ l, qn x ≤ l.foldl jsMaxStep m := by
  induction l generalizing m with
  | nil => simp
  | cons y l ih =>
    intro x hx
    rcases List.mem_cons.mp hx with h | h
    · subst h
      simp only [List.foldl_cons]
      refine le_trans ?_ (jsMax_foldl_ge_init _ _)
      unfold jsMaxStep
      split <;> simp_all [le_of_not_lt]
    · exact ih _ x h

lemma jsMax_foldl_mem (l : List ℚ) (m : JSNum) :
    l.foldl jsMaxStep m = m ∨ ∃ x ∈ l, l.foldl jsMaxStep m = qn x := by
  induction l generalizing m with
  | nil => exact Or.inl rfl
  | cons y l ih =>
    simp only [List.foldl_cons]
    by_cases hy : m < qn y
    · rw [show jsMaxStep m y = qn y from if_pos hy]
      rcases ih (qn y) with h | ⟨x, hx, h⟩
      · exact Or.inr ⟨y, List.mem_cons_self _ _, h⟩
      · exact Or.inr ⟨x, List.mem_cons_of_mem _ hx, h⟩
    · rw [show jsMaxStep m y = m from if_neg hy]
      rcases ih m with h | ⟨x, hx, h⟩
      · exact Or.inl h
      · exact Or.inr ⟨x, List.mem_cons_of_mem _ hx, h⟩

lemma qn_lt_top (q : ℚ) : qn q < ⊤ := by
  show ((q : WithTop ℚ) : JSNum) < _
  exact WithBot.coe_lt_coe.mpr (WithTop.coe_lt_top q)

lemma bot_lt_qn (q : ℚ) : (⊥ : JSNum) < qn q :=
  WithBot.bot_lt_coe _

lemma qn_lt_qn (a b : ℚ) : qn a < qn b ↔ a < b := by
  unfold qn
  rw [WithBot.coe_lt_coe, WithTop.coe_lt_coe]

lemma qn_le_qn (a b : ℚ) : qn a ≤ qn b ↔ a ≤ b := by
  unfold qn
  rw [WithBot.coe_le_coe, WithTop.coe_le_coe]

lemma qn_inj (a b : ℚ) : qn a = qn b ↔ a = b := by
  unfold qn
  rw [WithBot.coe_inj, WithTop.coe_inj]

lemma jsMinStep_top (v : ℚ) : jsMinStep ⊤ v = qn v := if_pos (qn_lt_top v)

lemma jsMaxStep_bot (v : ℚ) : jsMaxStep ⊥ v = qn v := if_pos (bot_lt_qn v)

lemma jsMinStep_qn (a v : ℚ) : jsMinStep (qn a) v = qn (if v < a then v else a) := by
  unfold jsMinStep
  by_cases h : v < a
  · rw [if_pos ((qn_lt_qn v a).mpr h), if_pos h]
  · rw [if_neg (fun hc => h ((qn_lt_qn v a).mp hc)), if_neg h]

lemma jsMaxStep_qn (a v : ℚ) : jsMaxStep (qn a) v = qn (if a < v then v else a) := by
  unfold jsMaxStep
  by_cases h : a < v
  · rw [if_pos ((qn_lt_qn a v).mpr h), if_pos h]
  · rw [if_neg (fun hc => h ((qn_lt_qn a v).mp hc)), if_neg h]

lemma jsMin_foldl_top_of_ne_nil (l : List ℚ) (hl : l ≠ []) :
    ∃ x ∈ l, l.foldl jsMinStep ⊤ = qn x := by
  rcases jsMin_foldl_mem l ⊤ with h | h
  · exfalso
    rcases List.exists_mem_of_ne_nil l hl with ⟨x0, hx0⟩
    have hle := jsMin_foldl_le l ⊤ x0 hx0
    rw [h] at hle
    exact absurd hle (not_le.mpr (qn_lt_top x0))
  · exact h

lemma jsMax_foldl_bot_of_ne_nil (l : List ℚ) (hl : l ≠ []) :
    ∃ x ∈ l, l.foldl jsMaxStep ⊥ = qn x := by
  rcases jsMax_foldl_mem l ⊥ with h | h
  · exfalso
    rcases List.exists_mem_of_ne_nil l hl with ⟨x0, hx0⟩
    have hle := jsMax_foldl_ge l ⊥ x0 hx0
    rw [h] at hle
    exact absurd hle (not_le.mpr (bot_lt_qn x0))
  · exact h

/-- Destructs a successful run of `computeVolumeDifference` into its pieces. -/
lemma computeVolumeDifference_eq_some (volA volB : VolumeData) (r : DiffVolume)
    (hr : computeVolumeDifference volA volB = some r) :
    volA.data.length = volB.data.length ∧
    r.data = List.zipWith (fun a b => b - a) volA.data volB.data ∧
    r.min = (List.zipWith (fun a b => b - a) volA.data volB.data).foldl jsMinStep ⊤ ∧
    r.max = (List.zipWith (fun a b => b - a) volA.data volB.data).foldl jsMaxStep ⊥ := by
  unfold computeVolumeDifference at hr
  by_cases hlen : volA.data.length ≠ volB.data.length
  · simp [hlen] at hr
  · simp only [hlen, if_false, Option.some.injEq] at hr
    subst hr
    exact ⟨not_ne_iff.mp hlen, rfl, rfl, rfl⟩

/-- C2 (amended): when the lengths match, the returned difference volume has
`output[i] = B[i] - A[i]`, and — provided the volumes are nonempty — its
`min`/`max` are the exact minimum and maximum over the full output; in
particular on `(A, A)` the output is all-zero with `min = max = 0`.  (On
empty volumes the running accumulators remain `Infinity`/`-Infinity`.) -/
theorem computeVolumeDifference_spec (volA volB : VolumeData) (r : DiffVolume)
    (hr : computeVolumeDifference volA volB = some r) :
    r.data.length = volA.data.length ∧
    (∀ i, i < r.data.length →
      r.data.getD i 0 = volB.data.getD i 0 - volA.data.getD i 0) ∧
    (volA.data ≠ [] →
      (∀ i, i < r.data.length →
        r.min ≤ qn (r.data.getD i 0) ∧ qn (r.data.getD i 0) ≤ r.max) ∧
      (∃ i, i < r.data.length ∧ qn (r.data.getD i 0) = r.min) ∧
      (∃ j, j < r.data.length ∧ qn (r.data.getD j 0) = r.max)) ∧
    (volA = volB →
      (∀ i, i < r.data.length → r.data.getD i 0 = 0) ∧
      (volA.data ≠ [] → r.min = qn 0 ∧ r.max = qn 0)) := by
  obtain ⟨hlen, hdata, hmin, hmax⟩ := computeVolumeDifference_eq_some volA volB r hr
  have hrl : r.data.length = volA.data.length := by
    rw [hdata, List.length_zipWith, hlen, min_self]
  have hnil : volA.data ≠ [] → r.data ≠ [] := by
    intro h hcon
    exact h (List.length_eq_zero.mp (by rw [← hrl, hcon, List.length_nil]))
  have helem : ∀ i, i < r.data.length →
      r.data.getD i 0 = volB.data.getD i 0 - volA.data.getD i 0 := by
    intro i hi
    have hiA : i < volA.data.length := hrl ▸ hi
    have hiB : i < volB.data.length := hlen ▸ hiA
    have hiz : i < (List.zipWith (fun a b => b - a) volA.data volB.data).length := by
      rw [List.length_zipWith, ← hlen, min_self]
      exact hiA
    have hz : (List.zipWith (fun a b => b - a) volA.data volB.data).getD i 0
        = volB.data[i] - volA.data[i] := by
      rw [List.getD_eq_getElem _ 0 hiz, List.getElem_zipWith]
    rw [hdata, hz, List.getD_eq_getElem volA.data 0 hiA,
      List.getD_eq_getElem volB.data 0 hiB]
  refine ⟨hrl, helem, ?_, ?_⟩
  · intro hne
    refine ⟨?_, ?_, ?_⟩
    · intro i hi
      have hmem : r.data.getD i 0 ∈ r.data := by
        rw [List.getD_eq_getElem r.data 0 hi]
        exact List.getElem_mem _
      constructor
      · rw [hmin]
        exact jsMin_foldl_le _ _ _ (hdata ▸ hmem)
      · rw [hmax]
        exact jsMax_foldl_ge _ _ _ (hdata ▸ hmem)
    · obtain ⟨x, hxmem, hx⟩ := jsMin_foldl_top_of_ne_nil r.data (hnil hne)
      obtain ⟨i, hi, hix⟩ := List.mem_iff_getElem.mp hxmem
      refine ⟨i, hi, ?_⟩
      rw [List.getD_eq_getElem r.data 0 hi, hix, hmin, ← hdata, hx]
    · obtain ⟨x, hxmem, hx⟩ := jsMax_foldl_bot_of_ne_nil r.data (hnil hne)
      obtain ⟨j, hj, hjx⟩ := List.mem_iff_getElem.mp hxmem
      refine ⟨j, hj, ?_⟩
      rw [List.getD_eq_getElem r.data 0 hj, hjx, hmax, ← hdata, hx]
  · intro hAB
    have hzero : ∀ i, i < r.data.length → r.data.getD i 0 = 0 := by
      intro i hi
      rw [helem i hi, ← hAB, sub_self]
    refine ⟨hzero, fun hne => ?_⟩
    have hall : ∀ x ∈ r.data, x = 0 := by
      intro x hx
      obtain ⟨i, hi, hix⟩ := List.mem_iff_getElem.mp hx
      rw [← hix, ← List.getD_eq_getElem r.data 0 hi]
      exact hzero i hi
    constructor
    · obtain ⟨x, hxmem, hx⟩ := jsMin_foldl_top_of_ne_nil r.data (hnil hne)
      rw [hmin, ← hdata, hx, hall x hxmem]
    · obtain ⟨x, hxmem, hx⟩ := jsMax_foldl_bot_of_ne_nil r.data (hnil hne)
      rw [hmax, ← hdata, hx, hall x hxmem]

/-- The degenerate empty volume used to refute the unrestricted claim. -/
def volEmpty : VolumeData := ⟨⟨16⟩, [], (0, 0, 0), 0, 0⟩

/-- C2 counterexample: on the (length-matched) pair `(volEmpty, volEmpty)`,
`computeVolumeDifference` succeeds but reports `min = Infinity` and
`max = -Infinity`, not `min = max = 0` as the claim states for every
`computeVolumeDifference(A, A)`. -/
theorem computeVolumeDifference_empty_cex :
    volEmpty.data.length = volEmpty.data.length ∧
    Option.map (fun r => (r.min, r.max)) (computeVolumeDifference volEmpty volEmpty)
      = some ((⊤ : JSNum), (⊥ : JSNum)) ∧
    (⊤ : JSNum) ≠ qn 0 ∧ (⊥ : JSNum) ≠ qn 0 := by
  refine ⟨rfl, ?_, by decide, by decide⟩
  simp [computeVolumeDifference, volEmpty]

/-- Concrete input volumes for the C2 witness. -/
def volDiffA : VolumeData := ⟨⟨2⟩, [1, 5], (2, 1, 1), 1, 5⟩

/-- Concrete input volumes for the C2 witness. -/
def volDiffB : VolumeData := ⟨⟨2⟩, [4, 2], (2, 1, 1), 2, 4⟩

/-- The result record of `computeVolumeDifference volDiffA volDiffB`. -/
def volDiffR : DiffVolume := ⟨⟨16⟩, [3, -3], (2, 1, 1), qn (-3), qn 3⟩

/-- C2 witness: the amended theorem applied at a concrete pair. -/
theorem computeVolumeDifference_spec_witness :
    computeVolumeDifference volDiffA volDiffB = some volDiffR ∧
    volDiffR.data.getD 0 0 = volDiffB.data.getD 0 0 - volDiffA.data.getD 0 0 := by
  have h : computeVolumeDifference volDiffA volDiffB = some volDiffR := by
    norm_num [computeVolumeDifference, volDiffA, volDiffB, volDiffR,
      jsMinStep_top, jsMaxStep_bot, jsMinStep_qn, jsMaxStep_qn, qn_inj]
  exact ⟨h, (computeVolumeDifference_spec volDiffA volDiffB volDiffR h).2.1 0 (by norm_num [volDiffR])⟩

/-- C4: `computeVolumeDifference` yields `null` (no result at all) exactly
when the two data arrays have different lengths. -/
theorem computeVolumeDifference_none_iff (volA volB : VolumeData) :
    computeVolumeDifference volA volB = none ↔
      volA.data.length ≠ volB.data.length := by
  unfold computeVolumeDifference
  by_cases h : volA.data.length ≠ volB.data.length <;> simp [h]

/-! ## Segmentation difference (`computeSegmentationDifference`) -/

/-- `const len = segA ? segA.data.length : (segB ? segB.data.length : 0)`. -/
def maskLen (segA segB : Option VolumeData) : ℕ :=
  match segA with
  | some a => a.data.length
  | none =>
    match segB with
    | some b => b.data.length
    | none => 0

/-- `segX ? segX.data : new Uint8Array(len)`: a `null` mask is replaced by an
all-zero array of the reference length. -/
def maskData (s : Option VolumeData) (len : ℕ) : List ℚ :=
  match s with
  | some m => m.data
  | none => List.replicate len 0

/-- The per-voxel label of the difference mask, from the `valA`/`valB`
conditional chain (presence means value `> 0`). -/
def segDiffLabel (a b : ℚ) : ℚ :=
  if 0 < a ∧ ¬0 < b then 1
  else if ¬0 < a ∧ 0 < b then 2
  else if 0 < a ∧ 0 < b then 3
  else 0

/-- `computeSegmentationDifference` from `src/utils/imageProcessing.ts`. -/
def computeSegmentationDifference (segA segB : Option VolumeData)
    (dimRef : ℕ × ℕ × ℕ) : Option VolumeData :=
  if segA = none ∧ segB = none then none
  else
    let len := maskLen segA segB
    if len = 0 then none
    else
      let dataA := maskData segA len
      let dataB := maskData segB len
      some
        { header := ⟨2⟩
          dimensions := dimRef
          data := (List.range len).map
            (fun i => segDiffLabel (dataA.getD i 0) (dataB.getD i 0))
          min := 0
          max := 3 }

/-- Destructs a successful run of `computeSegmentationDifference`. -/
lemma computeSegmentationDifference_eq_some (segA segB : Option VolumeData)
    (dimRef : ℕ × ℕ × ℕ) (r : VolumeData)
    (hr : computeSegmentationDifference segA segB dimRef = some r) :
    maskLen segA segB ≠ 0 ∧
    r.data = (List.range (maskLen segA segB)).map
      (fun i => segDiffLabel ((maskData segA (maskLen segA segB)).getD i 0)
        ((maskData segB (maskLen segA segB)).getD i 0)) ∧
    r.dimensions = dimRef ∧ r.min = 0 ∧ r.max = 3 := by
  unfold computeSegmentationDifference at hr
  by_cases h0 : segA = none ∧ segB = none
  · simp [h0] at hr
  · simp only [h0, if_false] at hr
    by_cases hlen : maskLen segA segB = 0
    · simp [hlen] at hr
    · simp only [hlen, if_false, Option.some.injEq] at hr
      subst hr
      exact ⟨hlen, rfl, rfl, rfl, rfl⟩

lemma getD_map_range (n : ℕ) (f : ℕ → ℚ) (i : ℕ) :
    ((List.range n).map f).getD i 0 = if i < n then f i else 0 := by
  by_cases h : i < n
  · rw [if_pos h, List.getD_eq_getElem _ _ (by simpa using h)]
    simp
  · rw [if_neg h, List.getD_eq_default]
    simpa using le_of_not_lt h

lemma segDiff_data_getD (segA segB : Option VolumeData) (dimRef : ℕ × ℕ × ℕ)
    (r : VolumeData) (hr : computeSegmentationDifference segA segB dimRef = some r)
    (i : ℕ) (hi : i < r.data.length) :
    r.data.getD i 0 = segDiffLabel ((maskData segA (maskLen segA segB)).getD i 0)
      ((maskData segB (maskLen segA segB)).getD i 0) := by
  obtain ⟨-, hdata, -, -, -⟩ := computeSegmentationDifference_eq_some segA segB dimRef r hr
  have hi' : i < maskLen segA segB := by
    have h2 := hi
    rw [hdata, List.length_map, List.length_range] at h2
    exact h2
  rw [hdata, getD_map_range, if_pos hi']

/-- C3: every voxel of the segmentation difference is classified by presence
(`value > 0`) in each mask: absent/absent `0`, A-only `1`, B-only `2`,
both `3`; identical masks give `3` on positive voxels and `0` elsewhere;
disjoint masks never produce label `3`, and labels always lie in
`{0, 1, 2, 3}`. -/
theorem computeSegmentationDifference_classifies (segA segB : Option VolumeData)
    (dimRef : ℕ × ℕ × ℕ) (r : VolumeData)
    (hr : computeSegmentationDifference segA segB dimRef = some r) :
    (∀ i, i < r.data.length →
      r.data.getD i 0 =
        if 0 < (maskData segA (maskLen segA segB)).getD i 0 then
          (if 0 < (maskData segB (maskLen segA segB)).getD i 0 then 3 else 1)
        else
          (if 0 < (maskData segB (maskLen segA segB)).getD i 0 then 2 else 0)) ∧
    (segA = segB → ∀ i, i < r.data.length →
      r.data.getD i 0 =
        if 0 < (maskData segA (maskLen segA segB)).getD i 0 then 3 else 0) ∧
    ((∀ i, ¬(0 < (maskData segA (maskLen segA segB)).getD i 0 ∧
        0 < (maskData segB (maskLen segA segB)).getD i 0)) →
      ∀ i, i < r.data.length → r.data.getD i 0 ≠ 3) ∧
    (∀ i, i < r.data.length → r.data.getD i 0 = 0 ∨ r.data.getD i 0 = 1 ∨
      r.data.getD i 0 = 2 ∨ r.data.getD i 0 = 3) := by
  have hcls : ∀ i, i < r.data.length →
      r.data.getD i 0 =
        if 0 < (maskData segA (maskLen segA segB)).getD i 0 then
          (if 0 < (maskData segB (maskLen segA segB)).getD i 0 then 3 else 1)
        else
          (if 0 < (maskData segB (maskLen segA segB)).getD i 0 then 2 else 0) := by
    intro i hi
    rw [segDiff_data_getD segA segB dimRef r hr i hi]
    unfold segDiffLabel
    by_cases ha : 0 < (maskData segA (maskLen segA segB)).getD i 0 <;>
      by_cases hb : 0 < (maskData segB (maskLen segA segB)).getD i 0
    · rw [if_neg (fun h => h.2 hb), if_neg (fun h => h.1 ha), if_pos ⟨ha, hb⟩,
        if_pos ha, if_pos hb]
    · rw [if_pos ⟨ha, hb⟩, if_pos ha, if_neg hb]
    · rw [if_neg (fun h => ha h.1), if_pos ⟨ha, hb⟩, if_neg ha, if_pos hb]
    · rw [if_neg (fun h => ha h.1), if_neg (fun h => hb h.2),
        if_neg (fun h => ha h.1), if_neg ha, if_neg hb]
  refine ⟨hcls, ?_, ?_, ?_⟩
  · intro hAB i hi
    subst hAB
    rw [hcls i hi]
    by_cases ha : 0 < (maskData segA (maskLen segA segA)).getD i 0
    · rw [if_pos ha, if_pos ha, if_pos ha]
    · rw [if_neg ha, if_neg ha, if_neg ha]
  · intro hdisj i hi
    rw [hcls i hi]
    by_cases ha : 0 < (maskData segA (maskLen segA segB)).getD i 0 <;>
      by_cases hb : 0 < (maskData segB (maskLen segA segB)).getD i 0
    · exact absurd ⟨ha, hb⟩ (hdisj i)
    · rw [if_pos ha, if_neg hb]
      norm_num
    · rw [if_neg ha, if_pos hb]
      norm_num
    · rw [if_neg ha, if_neg hb]
      norm_num
  · intro i hi
    rw [hcls i hi]
    by_cases ha : 0 < (maskData segA (maskLen segA segB)).getD i 0 <;>
      by_cases hb : 0 < (maskData segB (maskLen segA segB)).getD i 0
    · rw [if_pos ha, if_pos hb]
      norm_num
    · rw [if_pos ha, if_neg hb]
      norm_num
    · rw [if_neg ha, if_pos hb]
      norm_num
    · rw [if_neg ha, if_neg hb]
      norm_num

/-- A concrete nonempty mask for the C3/C8 witnesses. -/
def maskW : VolumeData := ⟨⟨2⟩, [1, 0], (2, 1, 1), 0, 1⟩

/-- The result of `computeSegmentationDifference (some maskW) (some maskW)`. -/
def maskDiffR : VolumeData := ⟨⟨2⟩, [3, 0], (2, 1, 1), 0, 3⟩

/-- C3 witness: the classification theorem applied to a concrete identical
nonempty pair of masks. -/
theorem computeSegmentationDifference_classifies_witness :
    computeSegmentationDifference (some maskW) (some maskW) (2, 1, 1) = some maskDiffR ∧
    maskDiffR.data.getD 0 0 =
      (if 0 < (maskData (some maskW) (maskLen (some maskW) (some maskW))).getD 0 0
        then 3 else 0) ∧
    maskDiffR.data.getD 0 0 = 3 := by
  have h : computeSegmentationDifference (some maskW) (some maskW) (2, 1, 1)
      = some maskDiffR := by decide
  refine ⟨h,
    (computeSegmentationDifference_classifies (some maskW) (some maskW) (2, 1, 1)
      maskDiffR h).2.1 rfl 0 (by decide), by decide⟩

/-- C8 (amended): the output of `computeSegmentationDifference` has
dimensions `dimRef` but data length equal to the governing input mask's
length (`segA`'s, else `segB`'s); the `data.length == dimX*dimY*dimZ`
invariant therefore holds exactly when that input length equals the product
of `dimRef`. -/
theorem computeSegmentationDifference_dims (segA segB : Option VolumeData)
    (dimRef : ℕ × ℕ × ℕ) (r : VolumeData)
    (hr : computeSegmentationDifference segA segB dimRef = some r) :
    r.dimensions = dimRef ∧
    r.data.length = maskLen segA segB ∧
    (maskLen segA segB = dimRef.1 * dimRef.2.1 * dimRef.2.2 →
      r.data.length = dimRef.1 * dimRef.2.1 * dimRef.2.2) := by
  obtain ⟨-, hdata, hdim, -, -⟩ := computeSegmentationDifference_eq_some segA segB dimRef r hr
  have hlen : r.data.length = maskLen segA segB := by
    rw [hdata, List.length_map, List.length_range]
  exact ⟨hdim, hlen, fun h => by rw [hlen, h]⟩

/-- An invariant-satisfying single-voxel mask (`data.length = 1 = 1*1*1`). -/
def maskCex : VolumeData := ⟨⟨2⟩, [1], (1, 1, 1), 0, 1⟩

/-- C8 counterexample: with the invariant-satisfying input `maskCex` and the
unrelated reference dimensions `(2,1,1)`, the output of
`computeSegmentationDifference` has dimensions `(2,1,1)` but data length `1`,
violating `data.length == dimX*dimY*dimZ` (which would require `2`). -/
theorem computeSegmentationDifference_dims_cex :
    maskCex.data.length =
      maskCex.dimensions.1 * maskCex.dimensions.2.1 * maskCex.dimensions.2.2 ∧
    Option.map (fun r => (r.dimensions, r.data.length))
      (computeSegmentationDifference (some maskCex) none (2, 1, 1))
      = some ((2, 1, 1), 1) ∧
    (1 : ℕ) ≠ 2 * 1 * 1 := by
  refine ⟨rfl, by decide, by decide⟩

/-- C8 witness: the amended theorem applied at a concrete input. -/
theorem computeSegmentationDifference_dims_witness :
    computeSegmentationDifference (some maskW) (some maskW) (2, 1, 1) = some maskDiffR ∧
    maskDiffR.dimensions = (2, 1, 1) ∧
    maskDiffR.data.length = maskLen (some maskW) (some maskW) := by
  have h : computeSegmentationDifference (some maskW) (some maskW) (2, 1, 1)
      = some maskDiffR := by decide
  exact ⟨h, (computeSegmentationDifference_dims (some maskW) (some maskW) (2, 1, 1)
    maskDiffR h).1, (computeSegmentationDifference_dims (some maskW) (some maskW)
    (2, 1, 1) maskDiffR h).2.1⟩

/-! ## Histogram estimator (`getHistogram` in `ProcessingPanel.tsx`) -/

/-- `const stride = len > 2_000_000 ? Math.floor(len / 500_000) : 1`. -/
def histStride (len : ℕ) : ℕ := if 2000000 < len then len / 500000 else 1

/-- The samples visited by the subsampling loop
`for (let i = 0; i < len; i += stride)`: the entries at the multiples of the
stride below the length. -/
def visitedSamples (data : List ℚ) : List ℚ :=
  ((List.range data.length).filter (fun i => i % histStride data.length = 0)).map
    (fun i => data.getD i 0)

/-- `const range = max - min || 1; const step = 256 / range`. -/
def binWidthOf (vmin vmax : ℚ) : ℚ :=
  256 / (if vmax - vmin = 0 then 1 else vmax - vmin)

/-- `getHistogram(data, min, max)`: bin counts over the visited samples
(`histogram[bin]++` guarded by `bin >= 0 && bin < 256`), plus the bin width. -/
def getHistogram (data : List ℚ) (vmin vmax : ℚ) : (Fin 256 → ℕ) × ℚ :=
  (fun b => (visitedSamples data).countP
    (fun v => decide (⌊(v - vmin) * binWidthOf vmin vmax⌋ = (b : ℤ))),
   binWidthOf vmin vmax)

lemma histStride_pos (len : ℕ) : 0 < histStride len := by
  unfold histStride
  split
  · omega
  · omega

/-- Summing per-bin counts over all 256 bins counts the samples whose bin
index lands in `[0, 256)`. -/
lemma countP_bins_sum (L : List ℚ) (g : ℚ → ℤ) :
    (∑ b : Fin 256, L.countP (fun v => decide (g v = (b : ℤ))))
      = L.countP (fun v => decide (0 ≤ g v ∧ g v < 256)) := by
  induction L with
  | nil => simp
  | cons x L ih =>
    simp only [List.countP_cons, Finset.sum_add_distrib, ih, decide_eq_true_eq]
    rw [add_right_inj]
    by_cases h : 0 ≤ g x ∧ g x < 256
    · rw [if_pos h]
      rw [Finset.sum_eq_single_of_mem (⟨(g x).toNat, by omega⟩ : Fin 256)
        (Finset.mem_univ _)]
      · rw [if_pos]
        simp only [Fin.val_mk]
        omega
      · intro b hb hbne
        rw [if_neg]
        intro hc
        apply hbne
        apply Fin.ext
        simp only [Fin.val_mk]
        omega
    · rw [if_neg h]
      apply Finset.sum_eq_zero
      intro b hb
      rw [if_neg]
      intro hc
      have hlt := b.isLt
      apply h
      constructor <;> omega

/-- For a non-degenerate range, a sample bins into `[0, 256)` exactly when it
lies in the half-open interval `[min, max)`; in particular a sample equal to
`max` itself bins to `256` and is dropped. -/
lemma bin_in_range_iff (vmin vmax v : ℚ) (h : vmin < vmax) :
    (0 ≤ ⌊(v - vmin) * binWidthOf vmin vmax⌋ ∧
      ⌊(v - vmin) * binWidthOf vmin vmax⌋ < 256) ↔ (vmin ≤ v ∧ v < vmax) := by
  have hrne : vmax - vmin ≠ 0 := sub_ne_zero.mpr (ne_of_gt h)
  have hrpos : (0 : ℚ) < vmax - vmin := sub_pos.mpr h
  have hstep : binWidthOf vmin vmax = 256 / (vmax - vmin) := by
    unfold binWidthOf
    rw [if_neg hrne]
  have hsteppos : (0 : ℚ) < 256 / (vmax - vmin) :=
    div_pos (by norm_num) hrpos
  rw [hstep]
  constructor
  · rintro ⟨h0, h1⟩
    have h0' : (0 : ℚ) ≤ (v - vmin) * (256 / (vmax - vmin)) := by
      exact_mod_cast Int.le_floor.mp h0
    have h1' : (v - vmin) * (256 / (vmax - vmin)) < 256 := by
      have := Int.floor_lt.mp h1
      exact_mod_cast this
    rw [← mul_div_assoc] at h1'
    rw [div_lt_iff₀ hrpos] at h1'
    constructor
    · nlinarith
    · nlinarith
  · rintro ⟨h0, h1⟩
    have h0' : (0 : ℚ) ≤ (v - vmin) * (256 / (vmax - vmin)) :=
      mul_nonneg (by linarith) (le_of_lt hsteppos)
    have h1' : (v - vmin) * (256 / (vmax - vmin)) < 256 := by
      rw [← mul_div_assoc, div_lt_iff₀ hrpos]
      nlinarith
    constructor
    · exact Int.le_floor.mpr (by exact_mod_cast h0')
    · exact Int.floor_lt.mpr (by exact_mod_cast h1')

/-- Core of C1: for a non-degenerate range, the bin counts sum to the number
of visited samples lying in `[min, max)`. -/
lemma histogram_sum_core (data : List ℚ) (vmin vmax : ℚ) (h : vmin < vmax) :
    (∑ b : Fin 256, (getHistogram data vmin vmax).1 b)
      = (visitedSamples data).countP (fun v => decide (vmin ≤ v ∧ v < vmax)) := by
  unfold getHistogram
  rw [countP_bins_sum (visitedSamples data)
    (fun v => ⌊(v - vmin) * binWidthOf vmin vmax⌋)]
  apply List.countP_congr
  intro v hv
  simp only [decide_eq_true_eq]
  constructor
  · intro hc
    exact (bin_in_range_iff vmin vmax v h).mp (by exact_mod_cast hc)
  · intro hc
    exact_mod_cast (bin_in_range_iff vmin vmax v h).mpr hc

/-- When the stride is `1` the loop visits every sample. -/
lemma visitedSamples_stride_one (data : List ℚ) (h : histStride data.length = 1) :
    visitedSamples data = data := by
  unfold visitedSamples
  simp only [h, Nat.mod_one, decide_True, List.filter_true]
  apply List.ext_getElem
  · simp
  · intro i h1 h2
    have hm : (List.map (fun i => data.getD i 0) (List.range data.length))[i]
        = data.getD i 0 := by
      simp
    rw [hm, List.getD_eq_getElem data 0 h2]

/-- C1 (amended): for a non-degenerate range `min < max`, the 256 bin counts
of `getHistogram` sum to the number of visited samples lying in `[min, max)`
(rather than to all visited samples: samples outside the range, including a
sample equal to `max` itself, are dropped); the visited samples are the whole
array when the stride is `1`. -/
theorem getHistogram_sum (data : List ℚ) (vmin vmax : ℚ) (h : vmin < vmax) :
    (∑ b : Fin 256, (getHistogram data vmin vmax).1 b)
      = (visitedSamples data).countP (fun v => decide (vmin ≤ v ∧ v < vmax)) ∧
    (histStride data.length = 1 → visitedSamples data = data) :=
  ⟨histogram_sum_core data vmin vmax h, visitedSamples_stride_one data⟩

/-- C1 counterexample: for `data = [0, 1]`, `min = 0`, `max = 1` (stride `1`,
so both samples are visited) the bin counts sum to `1`, not `2`: the sample
with value `max` computes bin `256` and is dropped by the
`bin >= 0 && bin < 256` guard. -/
theorem getHistogram_sum_cex :
    (visitedSamples [0, 1]).length = 2 ∧
    (∑ b : Fin 256, (getHistogram [0, 1] (0 : ℚ) 1).1 b) = 1 ∧
    (∑ b : Fin 256, (getHistogram [0, 1] (0 : ℚ) 1).1 b)
      ≠ (visitedSamples [0, 1]).length := by
  have hsum : (∑ b : Fin 256, (getHistogram [0, 1] (0 : ℚ) 1).1 b) = 1 := by
    rw [histogram_sum_core [0, 1] 0 1 (by norm_num)]
    decide
  refine ⟨by decide, hsum, ?_⟩
  rw [hsum]
  decide

/-- C1 witness: the amended theorem applied at a concrete volume, with the
visited-sample count evaluated concretely. -/
theorem getHistogram_sum_witness :
    ((0 : ℚ) < 2) ∧
    ((∑ b : Fin 256, (getHistogram [0, 3] (0 : ℚ) 2).1 b)
      = (visitedSamples [0, 3]).countP (fun v => decide ((0 : ℚ) ≤ v ∧ v < 2))) ∧
    (visitedSamples [0, 3]).countP (fun v => decide ((0 : ℚ) ≤ v ∧ v < 2)) = 1 :=
  ⟨by norm_num, (getHistogram_sum [0, 3] 0 2 (by norm_num)).1, by decide⟩

/-! ## Manual brush (`handleDraw` in `Viewport.tsx`) -/

/-- `const idx = pz*dimX*dimY + py*dimX + px`. -/
def flatIdx (dimX dimY : ℕ) (px py pz : ℕ) : ℕ := pz * dimX * dimY + py * dimX + px

/-- The offsets visited by the three nested loops
`for dz in [-r, r], for dy in [-r, r], for dx in [-r, r]`, as `(dx, dy, dz)`. -/
def sphereOffsets (r : ℕ) : List (ℤ × ℤ × ℤ) :=
  let offs := (List.range (2 * r + 1)).map (fun k => (k : ℤ) - r)
  offs.flatMap (fun dz => offs.flatMap (fun dy => offs.map (fun dx => (dx, dy, dz))))

/-- The write guard of the brush loop body: the exact Euclidean test
`dx*dx + dy*dy + dz*dz <= r*r` and the volume-bounds clip. -/
def paintCond (dims : ℕ × ℕ × ℕ) (x y z : ℤ) (r : ℕ) (o : ℤ × ℤ × ℤ) : Prop :=
  o.1 * o.1 + o.2.1 * o.2.1 + o.2.2 * o.2.2 ≤ (r : ℤ) * (r : ℤ) ∧
  0 ≤ x + o.1 ∧ x + o.1 < dims.1 ∧ 0 ≤ y + o.2.1 ∧ y + o.2.1 < dims.2.1 ∧
  0 ≤ z + o.2.2 ∧ z + o.2.2 < dims.2.2

instance (dims : ℕ × ℕ × ℕ) (x y z : ℤ) (r : ℕ) (o : ℤ × ℤ × ℤ) :
    Decidable (paintCond dims x y z r o) := by
  unfold paintCond
  infer_instance

/-- The flat index written for offset `o` (coordinates are nonnegative
whenever the bounds clip passed). -/
def offIdx (dims : ℕ × ℕ × ℕ) (x y z : ℤ) (o : ℤ × ℤ × ℤ) : ℕ :=
  flatIdx dims.1 dims.2.1 (x + o.1).toNat (y + o.2.1).toNat (z + o.2.2).toNat

/-- The brush body of `handleDraw`: fold the conditional writes
`segVol.data[idx] = val` over all offsets of the radius-`r` cube. -/
def paintSphere (dims : ℕ × ℕ × ℕ) (mask : List ℚ) (x y z : ℤ) (val : ℚ)
    (r : ℕ) : List ℚ :=
  (sphereOffsets r).foldl
    (fun acc o =>
      if paintCond dims x y z r o then acc.set (offIdx dims x y z o) val else acc)
    mask

/-- The indices written by the brush. -/
def paintTargets (dims : ℕ × ℕ × ℕ) (x y z : ℤ) (r : ℕ) : List ℕ :=
  (sphereOffsets r).filterMap
    (fun o => if paintCond dims x y z r o then some (offIdx dims x y z o) else none)

/-- The integer offsets of the discrete ball `dx² + dy² + dz² ≤ r²` inside
the cube `[-r, r]³`. -/
def ballFinset (r : ℕ) : Finset (ℤ × ℤ × ℤ) :=
  ((Finset.Icc (-(r : ℤ)) r) ×ˢ (Finset.Icc (-(r : ℤ)) r) ×ˢ
    (Finset.Icc (-(r : ℤ)) r)).filter
    (fun o => o.1 * o.1 + o.2.1 * o.2.1 + o.2.2 * o.2.2 ≤ (r : ℤ) * (r : ℤ))

/-- The closed-form count of integer offsets in the discrete ball. -/
def ballCount (r : ℕ) : ℕ := (ballFinset r).card

lemma paintSphere_go_length (dims : ℕ × ℕ × ℕ) (x y z : ℤ) (val : ℚ) (r : ℕ)
    (l : List (ℤ × ℤ × ℤ)) (acc : List ℚ) :
    (l.foldl
      (fun acc o =>
        if paintCond dims x y z r o then acc.set (offIdx dims x y z o) val else acc)
      acc).length = acc.length := by
  induction l generalizing acc with
  | nil => rfl
  | cons o l ih =>
    simp only [List.foldl_cons]
    split
    · rw [ih, List.length_set]
    · rw [ih]

lemma paintSphere_go_getD (dims : ℕ × ℕ × ℕ) (x y z : ℤ) (val : ℚ) (r : ℕ)
    (l : List (ℤ × ℤ × ℤ)) (acc : List ℚ) (j : ℕ) (hj : j < acc.length) :
    (l.foldl
      (fun acc o =>
        if paintCond dims x y z r o then acc.set (offIdx dims x y z o) val else acc)
      acc).getD j 0 =
      if j ∈ l.filterMap
        (fun o => if paintCond dims x y z r o then some (offIdx dims x y z o) else none)
      then val else acc.getD j 0 := by
  induction l generalizing acc with
  | nil => simp
  | cons o l ih =>
    simp only [List.foldl_cons, List.filterMap_cons]
    by_cases hc : paintCond dims x y z r o
    · rw [if_pos hc]
      simp only [hc, if_pos]
      rw [ih (acc.set (offIdx dims x y z o) val) (by rw [List.length_set]; exact hj)]
      by_cases hmem : j ∈ l.filterMap
        (fun o => if paintCond dims x y z r o then some (offIdx dims x y z o) else none)
      · rw [if_pos hmem, if_pos (List.mem_cons_of_mem _ hmem)]
      · rw [if_neg hmem]
        by_cases hij : j = offIdx dims x y z o
        · subst hij
          rw [if_pos (List.mem_cons_self _ _)]
          rw [List.getD_eq_getElem _ 0 (by rw [List.length_set]; exact hj)]
          rw [List.getElem_set]
          rw [if_pos rfl]
        · rw [if_neg (by
            intro hmem2
            rcases List.mem_cons.mp hmem2 with h | h
            · exact hij h
            · exact hmem h)]
          rw [List.getD_eq_getElem _ 0 (by rw [List.length_set]; exact hj),
            List.getD_eq_getElem _ 0 hj, List.getElem_set]
          rw [if_neg (fun h => hij h.symm)]
    · rw [if_neg hc]
      simp only [hc, if_neg, if_false]
      exact ih acc hj

lemma flatIdx_inj (X Y : ℕ) (px py pz px' py' pz' : ℕ)
    (hx : px < X) (hx' : px' < X) (hy : py < Y) (hy' : py' < Y)
    (h : flatIdx X Y px py pz = flatIdx X Y px' py' pz') :
    px = px' ∧ py = py' ∧ pz = pz' := by
  unfold flatIdx at h
  have e : ∀ a b c : ℕ, c * X * Y + b * X + a = a + X * (b + Y * c) := by
    intro a b c
    ring
  rw [e px py pz, e px' py' pz'] at h
  have hX : 0 < X := Nat.pos_of_ne_zero (by omega)
  have h1 : px = px' := by
    have hm := congrArg (· % X) h
    simpa [Nat.add_mul_mod_self_left, Nat.mod_eq_of_lt hx, Nat.mod_eq_of_lt hx']
      using hm
  subst h1
  have h2 : py + Y * pz = py' + Y * pz' :=
    Nat.eq_of_mul_eq_mul_left hX (Nat.add_left_cancel h)
  have hY : 0 < Y := Nat.pos_of_ne_zero (by omega)
  have h3 : py = py' := by
    have hm := congrArg (· % Y) h2
    simpa [Nat.add_mul_mod_self_left, Nat.mod_eq_of_lt hy, Nat.mod_eq_of_lt hy']
      using hm
  subst h3
  exact ⟨rfl, rfl, Nat.eq_of_mul_eq_mul_left hY (Nat.add_left_cancel h2)⟩

lemma flatIdx_lt (X Y Z px py pz : ℕ) (hx : px < X) (hy : py < Y) (hz : pz < Z) :
    flatIdx X Y px py pz < X * Y * Z := by
  unfold flatIdx
  calc pz * X * Y + py * X + px < pz * X * Y + py * X + X := by omega
  _ = (pz * Y + py + 1) * X := by ring
  _ ≤ (Z * Y) * X := by
      apply Nat.mul_le_mul_right
      calc pz * Y + py + 1 ≤ pz * Y + Y := by omega
      _ = (pz + 1) * Y := by ring
      _ ≤ Z * Y := Nat.mul_le_mul_right Y hz
  _ = X * Y * Z := by ring

lemma mem_sphereOffsets (r : ℕ) (o : ℤ × ℤ × ℤ) :
    o ∈ sphereOffsets r ↔
      (-(r : ℤ) ≤ o.1 ∧ o.1 ≤ r) ∧ (-(r : ℤ) ≤ o.2.1 ∧ o.2.1 ≤ r) ∧
      (-(r : ℤ) ≤ o.2.2 ∧ o.2.2 ≤ r) := by
  obtain ⟨dx, dy, dz⟩ := o
  simp [sphereOffsets, Prod.ext_iff]
  constructor
  · rintro ⟨a, ⟨ka, hka, rfl⟩, b, ⟨kb, hkb, rfl⟩, c, ⟨kc, hkc, rfl⟩, h1, h2, h3⟩
    refine ⟨⟨?_, ?_⟩, ⟨?_, ?_⟩, ?_, ?_⟩ <;> omega
  · rintro ⟨⟨h1, h2⟩, ⟨h3, h4⟩, h5, h6⟩
    exact ⟨((dz + (r : ℤ)).toNat : ℤ), ⟨(dz + (r : ℤ)).toNat, by omega, by omega⟩,
      ((dy + (r : ℤ)).toNat : ℤ), ⟨(dy + (r : ℤ)).toNat, by omega, by omega⟩,
      ((dx + (r : ℤ)).toNat : ℤ), ⟨(dx + (r : ℤ)).toNat, by omega, by omega⟩,
      by omega, by omega, by omega⟩

lemma mem_paintTargets (dims : ℕ × ℕ × ℕ) (x y z : ℤ) (r : ℕ) (j : ℕ) :
    j ∈ paintTargets dims x y z r ↔
      ∃ o ∈ sphereOffsets r, paintCond dims x y z r o ∧ offIdx dims x y z o = j := by
  unfold paintTargets
  rw [List.mem_filterMap]
  constructor
  · rintro ⟨o, ho, hf⟩
    by_cases hc : paintCond dims x y z r o
    · rw [if_pos hc, Option.some.injEq] at hf
      exact ⟨o, ho, hc, hf⟩
    · rw [if_neg hc] at hf
      exact absurd hf (Option.noConfusion)
  · rintro ⟨o, ho, hc, hf⟩
    exact ⟨o, ho, by rw [if_pos hc, hf]⟩

/-- At a fully interior centre the bounds clip is automatic, so the write
guard reduces to the sphere test. -/
lemma paintCond_interior (dims : ℕ × ℕ × ℕ) (x y z : ℤ) (r : ℕ)
    (hint : (r : ℤ) ≤ x ∧ x + r < dims.1 ∧ (r : ℤ) ≤ y ∧ y + r < dims.2.1 ∧
      (r : ℤ) ≤ z ∧ z + r < dims.2.2)
    (o : ℤ × ℤ × ℤ) (ho : o ∈ sphereOffsets r) :
    paintCond dims x y z r o ↔
      o.1 * o.1 + o.2.1 * o.2.1 + o.2.2 * o.2.2 ≤ (r : ℤ) * (r : ℤ) := by
  obtain ⟨⟨c1, c2⟩, ⟨c3, c4⟩, c5, c6⟩ := (mem_sphereOffsets r o).mp ho
  obtain ⟨i1, i2, i3, i4, i5, i6⟩ := hint
  unfold paintCond
  constructor
  · exact fun h => h.1
  · intro h
    exact ⟨h, by omega, by omega, by omega, by omega, by omega, by omega⟩

lemma paintTargets_toFinset_interior (dims : ℕ × ℕ × ℕ) (x y z : ℤ) (r : ℕ)
    (hint : (r : ℤ) ≤ x ∧ x + r < dims.1 ∧ (r : ℤ) ≤ y ∧ y + r < dims.2.1 ∧
      (r : ℤ) ≤ z ∧ z + r < dims.2.2) :
    (paintTargets dims x y z r).toFinset =
      Finset.image (offIdx dims x y z) (ballFinset r) := by
  ext j
  rw [List.mem_toFinset, mem_paintTargets, Finset.mem_image]
  constructor
  · rintro ⟨o, ho, hc, hf⟩
    refine ⟨o, ?_, hf⟩
    unfold ballFinset
    rw [Finset.mem_filter]
    obtain ⟨⟨c1, c2⟩, ⟨c3, c4⟩, c5, c6⟩ := (mem_sphereOffsets r o).mp ho
    refine ⟨?_, hc.1⟩
    simp only [Finset.mem_product, Finset.mem_Icc]
    exact ⟨⟨c1, c2⟩, ⟨c3, c4⟩, c5, c6⟩
  · rintro ⟨o, ho, hf⟩
    unfold ballFinset at ho
    rw [Finset.mem_filter] at ho
    obtain ⟨hcube, hsph⟩ := ho
    simp only [Finset.mem_product, Finset.mem_Icc] at hcube
    have hmem : o ∈ sphereOffsets r := (mem_sphereOffsets r o).mpr hcube
    exact ⟨o, hmem, (paintCond_interior dims x y z r hint o hmem).mpr hsph, hf⟩

lemma offIdx_injOn_interior (dims : ℕ × ℕ × ℕ) (x y z : ℤ) (r : ℕ)
    (hint : (r : ℤ) ≤ x ∧ x + r < dims.1 ∧ (r : ℤ) ≤ y ∧ y + r < dims.2.1 ∧
      (r : ℤ) ≤ z ∧ z + r < dims.2.2) :
    ∀ o ∈ ballFinset r, ∀ p ∈ ballFinset r,
      offIdx dims x y z o = offIdx dims x y z p → o = p := by
  intro o ho p hp h
  unfold ballFinset at ho hp
  rw [Finset.mem_filter] at ho hp
  simp only [Finset.mem_product, Finset.mem_Icc] at ho hp
  obtain ⟨⟨⟨a1, a2⟩, ⟨a3, a4⟩, a5, a6⟩, -⟩ := ho
  obtain ⟨⟨⟨b1, b2⟩, ⟨b3, b4⟩, b5, b6⟩, -⟩ := hp
  obtain ⟨i1, i2, i3, i4, i5, i6⟩ := hint
  unfold offIdx at h
  have hij := flatIdx_inj dims.1 dims.2.1 _ _ _ _ _ _
    (by omega) (by omega) (by omega) (by omega) h
  obtain ⟨e1, e2, e3⟩ := hij
  have : o.1 = p.1 ∧ o.2.1 = p.2.1 ∧ o.2.2 = p.2.2 := by
    refine ⟨?_, ?_, ?_⟩ <;> omega
  obtain ⟨f1, f2, f3⟩ := this
  exact Prod.ext f1 (Prod.ext f2 f3)

/-- C6: the brush sets to `val` exactly the in-bounds voxels whose offset
from the centre passes the `dx²+dy²+dz² ≤ r²` test, leaves every other voxel
unchanged, only ever touches indices inside the mask (given the volume
invariant), and at a fully interior centre the number of distinct voxels
written is the closed-form count of offsets of the discrete ball, which is
`7` for `r = 1`. -/
theorem paintSphere_spec (dims : ℕ × ℕ × ℕ) (mask : List ℚ) (x y z : ℤ)
    (val : ℚ) (r : ℕ) (hlen : mask.length = dims.1 * dims.2.1 * dims.2.2) :
    (paintSphere dims mask x y z val r).length = mask.length ∧
    (∀ j, j < mask.length →
      (paintSphere dims mask x y z val r).getD j 0 =
        if j ∈ paintTargets dims x y z r then val else mask.getD j 0) ∧
    (∀ t ∈ paintTargets dims x y z r, t < mask.length) ∧
    (((r : ℤ) ≤ x ∧ x + r < dims.1 ∧ (r : ℤ) ≤ y ∧ y + r < dims.2.1 ∧
        (r : ℤ) ≤ z ∧ z + r < dims.2.2) →
      (paintTargets dims x y z r).toFinset.card = ballCount r) ∧
    ballCount 1 = 7 := by
  refine ⟨paintSphere_go_length dims x y z val r _ mask,
    fun j hj => paintSphere_go_getD dims x y z val r _ mask j hj, ?_, ?_, ?_⟩
  · intro t ht
    obtain ⟨o, ho, hc, hf⟩ := (mem_paintTargets dims x y z r t).mp ht
    obtain ⟨-, d1, d2, d3, d4, d5, d6⟩ := hc
    rw [hlen, ← hf]
    unfold offIdx
    exact flatIdx_lt _ _ _ _ _ _ (by omega) (by omega) (by omega)
  · intro hint
    rw [paintTargets_toFinset_interior dims x y z r hint]
    exact Finset.card_image_of_injOn (offIdx_injOn_interior dims x y z r hint)
  · decide

/-- C6 witness: the theorem applied at a concrete interior brush stroke
(3×3×3 mask, centre voxel (1,1,1), radius 1). -/
theorem paintSphere_spec_witness :
    (List.replicate 27 (0 : ℚ)).length = 3 * 3 * 3 ∧
    (paintTargets (3, 3, 3) 1 1 1 1).toFinset.card = ballCount 1 ∧
    ballCount 1 = 7 := by
  have h := paintSphere_spec (3, 3, 3) (List.replicate 27 (0 : ℚ)) 1 1 1 1 1 (by simp)
  exact ⟨by simp, h.2.2.2.1 (by decide), h.2.2.2.2⟩

/-! ## Threshold solvers (`computeOtsuThreshold`, `computeLiThreshold`) -/

/-- The loop state of `computeOtsuThreshold`: running background intensity
sum and weight, the best between-class variance so far, the best threshold
bin so far, and whether the `wF === 0` break has fired. -/
structure OtsuState where
  sumB : ℚ
  wB : ℤ
  maxVar : ℚ
  thr : ℕ
  done : Bool
deriving DecidableEq, Repr

/-- `computeOtsuThreshold(histogram, total)` from `ProcessingPanel.tsx`:
left-to-right scan over the 256 bins maximizing `wB*wF*(mB-mF)^2`, skipping
`wB === 0` bins, breaking at `wF === 0`, ties keeping the first maximizer. -/
def computeOtsuThreshold (h : Fin 256 → ℕ) (total : ℕ) : ℕ :=
  let sum : ℚ := ∑ i : Fin 256, ((i : ℕ) : ℚ) * (h i : ℚ)
  let final := (List.finRange 256).foldl
    (fun (st : OtsuState) (t : Fin 256) =>
      if st.done then st
      else
        let wB : ℤ := st.wB + (h t : ℤ)
        if wB = 0 then { st with wB := wB }
        else
          let wF : ℤ := (total : ℤ) - wB
          if wF = 0 then { st with wB := wB, done := true }
          else
            let sumB : ℚ := st.sumB + ((t : ℕ) : ℚ) * (h t : ℚ)
            let mB : ℚ := sumB / (wB : ℚ)
            let mF : ℚ := (sum - sumB) / (wF : ℚ)
            let varBetween : ℚ := (wB : ℚ) * (wF : ℚ) * (mB - mF) * (mB - mF)
            if st.maxVar < varBetween then ⟨sumB, wB, varBetween, (t : ℕ), false⟩
            else { st with sumB := sumB, wB := wB })
    (⟨0, 0, 0, 0, false⟩ : OtsuState)
  final.thr

/-- Background weight of the Li partition `for i in [0, threshold]`. -/
def liWB (h : Fin 256 → ℕ) (t : ℤ) : ℚ :=
  ∑ i : Fin 256, if ((i : ℕ) : ℤ) ≤ t then (h i : ℚ) else 0

/-- Background intensity sum of the Li partition. -/
def liSB (h : Fin 256 → ℕ) (t : ℤ) : ℚ :=
  ∑ i : Fin 256, if ((i : ℕ) : ℤ) ≤ t then ((i : ℕ) : ℚ) * (h i : ℚ) else 0

/-- Foreground weight of the Li partition `for i in [threshold+1, 255]`. -/
def liWF (h : Fin 256 → ℕ) (t : ℤ) : ℚ :=
  ∑ i : Fin 256, if t < ((i : ℕ) : ℤ) then (h i : ℚ) else 0

/-- Foreground intensity sum of the Li partition. -/
def liSF (h : Fin 256 → ℕ) (t : ℤ) : ℚ :=
  ∑ i : Fin 256, if t < ((i : ℕ) : ℤ) then ((i : ℕ) : ℚ) * (h i : ℚ) else 0

/-- One Li update `Math.round((mF - mB) / (Math.log(mF) - Math.log(mB)))`.
When a partition mean is `0` the source's `Math.log` yields `-Infinity` and
the IEEE quotient collapses to `+0`, so the rounded update is `0`; that
branch is made explicit here (`Real.log 0` is `0` in Mathlib, not `-∞`).
With both means positive the formula is exact. -/
noncomputable def liUpdate (h : Fin 256 → ℕ) (t : ℤ) : ℤ :=
  let mB : ℚ := liSB h t / liWB h t
  let mF : ℚ := liSF h t / liWF h t
  if mB = 0 ∨ mF = 0 then 0
  else round (((mF : ℝ) - (mB : ℝ)) / (Real.log (mF : ℝ) - Real.log (mB : ℝ)))

/-- The Li iteration: up to `fuel` updates, stopping at a zero-weight
partition (keeping the current threshold) or at a fixpoint. -/
noncomputable def liIter (h : Fin 256 → ℕ) : ℕ → ℤ → ℤ
  | 0, t => t
  | fuel + 1, t =>
    if liWB h t = 0 ∨ liWF h t = 0 then t
    else
      let t2 := liUpdate h t
      if t2 = t then t else liIter h fuel t2

/-- `computeLiThreshold(histogram, total)` from `ProcessingPanel.tsx`:
threshold initialized to `Math.round(mean)`, then at most 50 Li updates. -/
noncomputable def computeLiThreshold (h : Fin 256 → ℕ) (total : ℕ) : ℤ :=
  liIter h 50 (round ((∑ i : Fin 256, ((i : ℕ) : ℚ) * (h i : ℚ)) / (total : ℚ)))

/-! ## Segmentation engine (`runSegmentation` in `ProcessingPanel.tsx`) -/

/-- The segmentation method selector. -/
inductive SegMethod where
  | binary
  | truncate
  | binary_inv
  | range_pass
  | otsu
  | li
  | multi_otsu
  | local_adaptive
deriving DecidableEq, Repr

/-- The per-voxel label after the conditional writes of the scan loop
(the mask is zero-initialized, so a voxel not written keeps label `0`). -/
def segLabel (m : SegMethod) (threshold upperThreshold v : ℚ) : ℚ :=
  match m with
  | .binary => if threshold ≤ v then 1 else 0
  | .truncate => if threshold ≤ v then 1 else 0
  | .binary_inv => if v ≤ threshold then 1 else 0
  | .range_pass => if threshold ≤ v ∧ v ≤ upperThreshold then 1 else 0
  | .otsu => if threshold ≤ v then 1 else 0
  | .li => if threshold ≤ v then 1 else 0
  | .multi_otsu =>
    if threshold ≤ v ∧ v < upperThreshold then 1
    else if upperThreshold ≤ v then 2 else 0
  | .local_adaptive => if threshold ≤ v then 3 else 0

/-- Threshold resolution before the scan loop: manual bounds for the manual
methods, solver output mapped back to intensity (`min + bin/step`) for the
automatic ones, and the `Math.max(t1Bin+1, t2Bin)` upper bound for
multi-Otsu. -/
noncomputable def resolveThresholds (m : SegMethod) (vol : VolumeData)
    (manualThreshold manualUpper : ℚ) : ℚ × ℚ :=
  match m with
  | .otsu =>
    let hg := getHistogram vol.data vol.min vol.max
    let total := ∑ b : Fin 256, hg.1 b
    (vol.min + (computeOtsuThreshold hg.1 total : ℚ) / hg.2, manualUpper)
  | .li =>
    let hg := getHistogram vol.data vol.min vol.max
    let total := ∑ b : Fin 256, hg.1 b
    (vol.min + (computeLiThreshold hg.1 total : ℚ) / hg.2, manualUpper)
  | .multi_otsu =>
    let hg := getHistogram vol.data vol.min vol.max
    let total := ∑ b : Fin 256, hg.1 b
    let t1 := computeOtsuThreshold hg.1 total
    let hist2 : Fin 256 → ℕ := fun i => if t1 ≤ (i : ℕ) then hg.1 i else 0
    let total2 := ∑ b : Fin 256, hist2 b
    let t2 := computeOtsuThreshold hist2 total2
    (vol.min + (t1 : ℚ) / hg.2, vol.min + ((Nat.max (t1 + 1) t2 : ℕ) : ℚ) / hg.2)
  | _ => (manualThreshold, manualUpper)

/-- A pair of typed arrays: the read-only input array and the freshly
allocated output array a pipeline stage writes into.  Modelling both buffers
explicitly lets the no-input-mutation contract be stated and proved. -/
structure Buffers where
  src : List ℚ
  dst : List ℚ
deriving DecidableEq, Repr

/-- The chunked scan loop shared by the pipeline stages: for each index `j`
of the input, write `f(src[j])` into the output buffer at `j`.  (The chunk
boundaries only drive progress reporting and do not affect the data.) -/
def mapLoop (f : ℚ → ℚ) (src dst : List ℚ) : Buffers :=
  (List.range src.length).foldl
    (fun st j => ⟨st.src, st.dst.set j (f (st.src.getD j 0))⟩) ⟨src, dst⟩

/-- The segmentation scan loop: reads the volume, writes a fresh
zero-initialized mask. -/
def segScanRun (m : SegMethod) (threshold upperThreshold : ℚ)
    (vol : VolumeData) : Buffers :=
  mapLoop (segLabel m threshold upperThreshold) vol.data
    (List.replicate vol.data.length 0)

/-- `runSegmentation`: resolve thresholds, run the scan loop, and wrap the
mask with `datatypeCode: 2`, the volume's dimensions and the constants
`min: 0, max: 255`. -/
noncomputable def runSegmentation (m : SegMethod) (vol : VolumeData)
    (manualThreshold manualUpper : ℚ) : VolumeData :=
  let tu := resolveThresholds m vol manualThreshold manualUpper
  { header := { vol.header with datatypeCode := 2 }
    dimensions := vol.dimensions
    data := (segScanRun m tu.1 tu.2 vol).dst
    min := 0
    max := 255 }

lemma getD_set (l : List ℚ) (i j : ℕ) (a : ℚ) :
    (l.set i a).getD j 0 = if i = j ∧ j < l.length then a else l.getD j 0 := by
  by_cases hj : j < l.length
  · rw [List.getD_eq_getElem _ 0 (by rw [List.length_set]; exact hj),
      List.getD_eq_getElem _ 0 hj, List.getElem_set]
    by_cases hij : i = j
    · rw [if_pos hij, if_pos ⟨hij, hj⟩]
    · rw [if_neg hij, if_neg (fun h => hij h.1)]
  · rw [List.getD_eq_default _ 0 (by rw [List.length_set]; omega),
      List.getD_eq_default _ 0 (by omega), if_neg (fun h => hj h.2)]

lemma mapLoop_go (f : ℚ → ℚ) (src dst : List ℚ) (n : ℕ) :
    ((List.range n).foldl
      (fun st j => ⟨st.src, st.dst.set j (f (st.src.getD j 0))⟩)
      (⟨src, dst⟩ : Buffers)).src = src ∧
    ((List.range n).foldl
      (fun st j => ⟨st.src, st.dst.set j (f (st.src.getD j 0))⟩)
      (⟨src, dst⟩ : Buffers)).dst.length = dst.length ∧
    (∀ j, ((List.range n).foldl
      (fun st j => ⟨st.src, st.dst.set j (f (st.src.getD j 0))⟩)
      (⟨src, dst⟩ : Buffers)).dst.getD j 0 =
        if j < n ∧ j < dst.length then f (src.getD j 0) else dst.getD j 0) := by
  induction n with
  | zero =>
    refine ⟨rfl, rfl, fun j => ?_⟩
    rw [if_neg (fun h => Nat.not_lt_zero j h.1)]
    rfl
  | succ n ih =>
    obtain ⟨ihs, ihl, ihd⟩ := ih
    rw [List.range_succ]
    simp only [List.foldl_append, List.foldl_cons, List.foldl_nil]
    refine ⟨by rw [ihs], by rw [List.length_set, ihl], fun j => ?_⟩
    rw [ihs, getD_set]
    by_cases hj : n = j ∧ j < ((List.range n).foldl
      (fun st j => ⟨st.src, st.dst.set j (f (st.src.getD j 0))⟩)
      (⟨src, dst⟩ : Buffers)).dst.length
    · rw [if_pos hj, if_pos ⟨by omega, by rw [← ihl]; exact hj.2⟩, hj.1]
    · rw [if_neg hj, ihd j]
      rw [ihl] at hj
      by_cases hlt : j < n ∧ j < dst.length
      · rw [if_pos hlt, if_pos ⟨by omega, hlt.2⟩]
      · rw [if_neg hlt, if_neg (by omega)]

lemma mapLoop_src (f : ℚ → ℚ) (src dst : List ℚ) : (mapLoop f src dst).src = src :=
  (mapLoop_go f src dst src.length).1

lemma mapLoop_dst_length (f : ℚ → ℚ) (src dst : List ℚ) :
    (mapLoop f src dst).dst.length = dst.length :=
  (mapLoop_go f src dst src.length).2.1

lemma mapLoop_dst_getD (f : ℚ → ℚ) (src dst : List ℚ)
    (hl : dst.length = src.length) (j : ℕ) (hj : j < src.length) :
    (mapLoop f src dst).dst.getD j 0 = f (src.getD j 0) := by
  rw [mapLoop, (mapLoop_go f src dst src.length).2.2 j,
    if_pos ⟨hj, by rw [hl]; exact hj⟩]

/-! ## Global histogram equalization (`runProcessing`, method `hist_eq`) -/

/-- `cdf[Math.max(0, Math.min(255, bin))]`: the clamped bin index. -/
def clampBin (b : ℤ) : Fin 256 := ⟨(min 255 (max 0 b)).toNat, by omega⟩

/-- The per-voxel map of the equalization loop:
`newData[j] = min + (cdf[clamp(bin)] / total) * range` with
`bin = Math.floor(((data[j] - min) / range) * 255)`. -/
def histEqStep (vmin range : ℚ) (cdf : Fin 256 → ℕ) (total : ℕ) (v : ℚ) : ℚ :=
  vmin + ((cdf (clampBin ⌊(v - vmin) / range * 255⌋) : ℚ) / (total : ℚ)) * range

/-- The cumulative histogram `cdf[i] = histogram[0] + ... + histogram[i]`. -/
def histEqCdf (vol : VolumeData) : Fin 256 → ℕ :=
  fun b => ∑ i : Fin 256,
    if i ≤ b then (getHistogram vol.data vol.min vol.max).1 i else 0

/-- The total count of the volume's 256-bin histogram. -/
def histEqTotal (vol : VolumeData) : ℕ :=
  ∑ b : Fin 256, (getHistogram vol.data vol.min vol.max).1 b

/-- The `hist_eq` branch of `runProcessing`: builds the histogram and CDF of
the input (`total` being the running sum after the CDF loop, i.e. `cdf[255]`),
then maps every voxel through `histEqStep`; the output buffer starts as a
fresh copy of the input (`newData.set(data)`). -/
def histEqRun (vol : VolumeData) : Buffers :=
  mapLoop
    (histEqStep vol.min (if vol.max - vol.min = 0 then 1 else vol.max - vol.min)
      (histEqCdf vol) (histEqCdf vol 255))
    vol.data vol.data

/-! ## The remaining transform stages of `runProcessing`

Each branch of `runProcessing` is embedded as an explicit state fold: the
state carries the input `data` array together with the stage's freshly
allocated buffers (`newData`, and the scratch buffers `buf` / `blurred`
where the source has them), and every loop iteration writes through
`List.set` into a buffer component only, mirroring the source's
`newData[i] = ...` / `blurred[i] = ...` assignments.  The first component of
every stage state is the input array, so the no-input-mutation contract is
the statement that this component is unchanged when the stage completes. -/

/-- A fold whose step never replaces the first state component leaves it
unchanged. -/
lemma foldl_preserves_fst {α σ ι : Type} (step : α × σ → ι → α × σ)
    (hstep : ∀ st i, (step st i).1 = st.1) (l : List ι) (st : α × σ) :
    (l.foldl step st).1 = st.1 := by
  induction l generalizing st with
  | nil => rfl
  | cons x l ih => rw [List.foldl_cons, ih, hstep]

/-- ECMAScript `ToInt32` truncation toward zero, for a store into an
`Int32Array` (the engine's values stay far below the wrap-around). -/
def jsToInt32 (q : ℚ) : ℤ := if 0 ≤ q then ⌊q⌋ else -⌊-q⌋

/-- The slice minimum: equals the source's `Infinity`-seeded running minimum
whenever the slice is nonempty, the only case in which it is read. -/
def sliceMin (l : List ℚ) : ℚ :=
  match l with
  | [] => 0
  | x :: xs => xs.foldl min x

/-- The slice maximum (see `sliceMin`). -/
def sliceMax (l : List ℚ) : ℚ :=
  match l with
  | [] => 0
  | x :: xs => xs.foldl max x

/-- The CLAHE per-slice histogram: unlike `getHistogram`, the bin index is
clamped into `[0,255]` (`hist[Math.max(0, Math.min(255, bin))]++`), so no
sample is dropped. -/
def claheSliceHist (slice : List ℚ) (sMin sRange : ℚ) : Fin 256 → ℕ :=
  fun b => slice.countP (fun v => decide (clampBin ⌊(v - sMin) / sRange * 255⌋ = b))

/-- `const limit = (sliceData.length / 256) * clipLimit`. -/
def claheLimit (sliceLen : ℕ) (clip : ℚ) : ℚ := ((sliceLen : ℚ) / 256) * clip

/-- The clipped excess `excess += hist[k] - limit` accumulated over the bins
above the limit (a plain float accumulator, not truncated). -/
def claheExcess (hist0 : Fin 256 → ℕ) (limit : ℚ) : ℚ :=
  ∑ b : Fin 256, if limit < (hist0 b : ℚ) then (hist0 b : ℚ) - limit else 0

/-- The histogram after clipping (`hist[k] = limit` stores into the
`Int32Array`, truncating) and uniform redistribution
(`hist[k] += increment`, again truncated by the store). -/
def claheRedistributed (hist0 : Fin 256 → ℕ) (limit : ℚ) : Fin 256 → ℤ :=
  fun b =>
    let clipped : ℤ := if limit < (hist0 b : ℚ) then jsToInt32 limit else (hist0 b : ℤ)
    jsToInt32 ((clipped : ℚ) + claheExcess hist0 limit / 256)

/-- The CLAHE per-slice normalized CDF `cdf[k] = sum / sliceData.length`. -/
def claheCdf (hist2 : Fin 256 → ℤ) (sliceLen : ℕ) : Fin 256 → ℚ :=
  fun b => (∑ i : Fin 256, if i ≤ b then (hist2 i : ℚ) else 0) / (sliceLen : ℚ)

/-- The `clahe` branch: per Z-slice, local min/max (`|| 1` range), clamped
256-bin histogram, clip-and-redistribute, normalized CDF, then remap each
slice voxel into `newData[offset + k]`.  State: `(data, newData)`, with
`newData` starting as the fresh copy of the input. -/
def claheRun (vol : VolumeData) (clip : ℚ) : List ℚ × List ℚ :=
  (List.range vol.dimensions.2.2).foldl
    (fun st z =>
      let W := vol.dimensions.1
      let H := vol.dimensions.2.1
      let offset := z * (W * H)
      let slice := (st.1.drop offset).take (W * H)
      let sMin := sliceMin slice
      let sMax := sliceMax slice
      let sRange := if sMax - sMin = 0 then 1 else sMax - sMin
      let cdf := claheCdf
        (claheRedistributed (claheSliceHist slice sMin sRange)
          (claheLimit slice.length clip))
        slice.length
      (List.range slice.length).foldl
        (fun st2 k =>
          (st2.1, st2.2.set (offset + k)
            (sMin + cdf (clampBin ⌊(slice.getD k 0 - sMin) / sRange * 255⌋) * sRange)))
        st)
    (vol.data, vol.data)

/-- The `gamma_bright` / `gamma_dark` branch:
`newData[j] = min + pow(max(0, (data[j] - min) / range), gamma) * range`.
`Math.pow` forces a real-valued embedding, so the arrays are the input cast
into the reals.  State: `(data, newData)`. -/
noncomputable def gammaRun (vol : VolumeData) (gamma : ℝ) : List ℝ × List ℝ :=
  let dataR := vol.data.map (fun q => (q : ℝ))
  let vmin : ℝ := (vol.min : ℚ)
  let range : ℝ := ((if vol.max - vol.min = 0 then 1 else vol.max - vol.min : ℚ) : ℝ)
  (List.range dataR.length).foldl
    (fun st j =>
      (st.1, st.2.set j
        (vmin + Real.rpow (max 0 ((st.1.getD j 0 - vmin) / range)) gamma * range)))
    (dataR, dataR)

/-- The `sigmoid` branch: normalize, logistic `1 / (1 + exp(-gain*(u -
cutoff)))`, denormalize.  State: `(data, newData)`, real-valued because of
`Math.exp`. -/
noncomputable def sigmoidRun (vol : VolumeData) (gain cutoff : ℝ) : List ℝ × List ℝ :=
  let dataR := vol.data.map (fun q => (q : ℝ))
  let vmin : ℝ := (vol.min : ℚ)
  let range : ℝ := ((if vol.max - vol.min = 0 then 1 else vol.max - vol.min : ℚ) : ℝ)
  (List.range dataR.length).foldl
    (fun st j =>
      (st.1, st.2.set j
        (vmin + 1 / (1 + Real.exp (-gain * ((st.1.getD j 0 - vmin) / range - cutoff)))
          * range)))
    (dataR, dataR)

/-- One write of a Gaussian pass: `newData[i] = buf[i-d]*0.2 + buf[i]*0.6 +
buf[i+d]*0.2` on the state `(data, buf, newData)`. -/
def gaussStepWith (delta : ℕ) (st : List ℚ × List ℚ × List ℚ) (i : ℕ) :
    List ℚ × List ℚ × List ℚ :=
  (st.1, st.2.1, st.2.2.set i
    (st.2.1.getD (i - delta) 0 * 0.2 + st.2.1.getD i 0 * 0.6 +
      st.2.1.getD (i + delta) 0 * 0.2))

/-- The interior indices of the X-pass (`x` from `1` to `width-2`). -/
def gaussXIdx (W H D : ℕ) : List ℕ :=
  (List.range D).flatMap (fun z => (List.range H).flatMap (fun y =>
    (List.range (W - 2)).map (fun x1 => flatIdx W H (x1 + 1) y z)))

/-- The interior indices of the Y-pass. -/
def gaussYIdx (W H D : ℕ) : List ℕ :=
  (List.range D).flatMap (fun z => (List.range (H - 2)).flatMap (fun y1 =>
    (List.range W).map (fun x => flatIdx W H x (y1 + 1) z)))

/-- The interior indices of the Z-pass. -/
def gaussZIdx (W H D : ℕ) : List ℕ :=
  (List.range (D - 2)).flatMap (fun z1 => (List.range H).flatMap (fun y =>
    (List.range W).map (fun x => flatIdx W H x y (z1 + 1))))

/-- One Gaussian pass: fold its writes over the interior indices. -/
def gaussPass (delta : ℕ) (idxs : List ℕ) (st : List ℚ × List ℚ × List ℚ) :
    List ℚ × List ℚ × List ℚ :=
  idxs.foldl (gaussStepWith delta) st

/-- `buf.set(newData)` between passes: the scratch buffer becomes a copy of
the pass output. -/
def gaussCopy (st : List ℚ × List ℚ × List ℚ) : List ℚ × List ℚ × List ℚ :=
  (st.1, st.2.2, st.2.2)

/-- The `gaussian` branch: three sequential 1D passes (X, Y, Z) with the
fixed `[0.2, 0.6, 0.2]` kernel, border voxels untouched by each pass, the
scratch buffer re-copied from `newData` between passes.  State:
`(data, buf, newData)`, both buffers starting as fresh copies of the input. -/
def gaussianRun (vol : VolumeData) : List ℚ × List ℚ × List ℚ :=
  let W := vol.dimensions.1
  let H := vol.dimensions.2.1
  let D := vol.dimensions.2.2
  gaussPass (W * H) (gaussZIdx W H D)
    (gaussCopy (gaussPass W (gaussYIdx W H D)
      (gaussCopy (gaussPass 1 (gaussXIdx W H D) (vol.data, vol.data, vol.data)))))

lemma gaussPass_fst (delta : ℕ) (idxs : List ℕ) (st : List ℚ × List ℚ × List ℚ) :
    (gaussPass delta idxs st).1 = st.1 := by
  refine foldl_preserves_fst _ ?_ _ _
  intro st i
  rfl

lemma gaussCopy_fst (st : List ℚ × List ℚ × List ℚ) : (gaussCopy st).1 = st.1 := rfl

/-- The indices of the unsharp blur loop
(`for i = width+1; i < len-width-1`). -/
def unsharpIdx (W len : ℕ) : List ℕ :=
  (List.range (len - W - 1 - (W + 1))).map (fun i0 => i0 + (W + 1))

/-- The `unsharp` branch: a 5-point average blur into the fresh `blurred`
buffer (zero elsewhere), then `newData[i] = data[i] + strength*(data[i] -
blurred[i])`.  State: `(data, blurred, buf, newData)` with `blurred` fresh
zeros and `buf`/`newData` fresh copies of the input. -/
def unsharpRun (vol : VolumeData) (strength : ℚ) :
    List ℚ × List ℚ × List ℚ × List ℚ :=
  let W := vol.dimensions.1
  let len := vol.data.length
  let st1 := (unsharpIdx W len).foldl
    (fun (st : List ℚ × List ℚ × List ℚ × List ℚ) i =>
      (st.1, st.2.1.set i
        ((st.2.2.1.getD (i - 1) 0 + st.2.2.1.getD i 0 + st.2.2.1.getD (i + 1) 0 +
          st.2.2.1.getD (i - W) 0 + st.2.2.1.getD (i + W) 0) / 5),
        st.2.2.1, st.2.2.2))
    (vol.data, List.replicate len 0, vol.data, vol.data)
  (List.range len).foldl
    (fun (st : List ℚ × List ℚ × List ℚ × List ℚ) i =>
      (st.1, st.2.1, st.2.2.1, st.2.2.2.set i
        (st.1.getD i 0 + strength * (st.1.getD i 0 - st.2.1.getD i 0))))
    st1

/-- A normalized 256-bin CDF (`cdf[i] = runningSum`, then `cdf[i] /= sum`). -/
def histMatchCdf (h : Fin 256 → ℕ) : Fin 256 → ℚ :=
  fun b => (∑ i : Fin 256, if i ≤ b then (h i : ℚ) else 0)
    / ((∑ i : Fin 256, h i : ℕ) : ℚ)

/-- The mapping-table scan: the first reference bin whose CDF value is
closest to the target, ties and no-improvement keeping the earlier index
(`minDiff` starts at `1`, strict `<` update). -/
def argminDiff (cdfRef : Fin 256 → ℚ) (target : ℚ) : ℕ :=
  ((List.finRange 256).foldl
    (fun (st : ℕ × ℚ) j =>
      if |cdfRef j - target| < st.2 then ((j : ℕ), |cdfRef j - target|) else st)
    (0, 1)).1

/-- The `hist_match` branch: normalized source and reference CDFs, per-bin
closest-CDF mapping, per-voxel remap into the reference intensity range.
State: `(data, newData)`; the reference volume is a read-only parameter. -/
def histMatchRun (vol ref : VolumeData) : List ℚ × List ℚ :=
  let cdfSrc := histMatchCdf (getHistogram vol.data vol.min vol.max).1
  let cdfRef := histMatchCdf (getHistogram ref.data ref.min ref.max).1
  let range := if vol.max - vol.min = 0 then 1 else vol.max - vol.min
  let refRange := if ref.max - ref.min = 0 then 1 else ref.max - ref.min
  (List.range vol.data.length).foldl
    (fun st i =>
      (st.1, st.2.set i
        (ref.min + ((argminDiff cdfRef
            (cdfSrc (clampBin ⌊(st.1.getD i 0 - vol.min) / range * 255⌋)) : ℚ)
          / 255) * refRange)))
    (vol.data, vol.data)

/-- The `n4_bias` branch: per voxel, decompose the flat index, normalized
distance from centre per axis (`(coord - dim/2) / (dim/2)` with real halves),
`bias = 1 - 0.3*distSq` floored at `0.1`, `newData[i] = data[i] / bias`.
State: `(data, newData)`. -/
def n4BiasRun (vol : VolumeData) : List ℚ × List ℚ :=
  let W := vol.dimensions.1
  let H := vol.dimensions.2.1
  let D := vol.dimensions.2.2
  (List.range vol.data.length).foldl
    (fun st i =>
      let z := i / (W * H)
      let rem := i % (W * H)
      let y := rem / W
      let x := rem % W
      let dx := ((x : ℚ) - (W : ℚ) / 2) / ((W : ℚ) / 2)
      let dy := ((y : ℚ) - (H : ℚ) / 2) / ((H : ℚ) / 2)
      let dz := ((z : ℚ) - (D : ℚ) / 2) / ((D : ℚ) / 2)
      let bias := 1 - (3 / 10) * (dx * dx + dy * dy + dz * dz)
      (st.1, st.2.set i (st.1.getD i 0 / max (1 / 10) bias)))
    (vol.data, vol.data)

/-- The `median_3d` branch: per slice, for each interior pixel, the middle
element of the ascending sort of the in-slice 3×3 neighborhood, written into
`newData`; border pixels keep the initial copy.  State: `(data, newData)`. -/
def median3dRun (vol : VolumeData) : List ℚ × List ℚ :=
  let W := vol.dimensions.1
  let H := vol.dimensions.2.1
  let D := vol.dimensions.2.2
  ((List.range D).flatMap (fun z => (List.range (H - 2)).flatMap (fun y1 =>
      (List.range (W - 2)).map (fun x1 => (z, y1 + 1, x1 + 1))))).foldl
    (fun st t =>
      let offset := t.1 * (W * H)
      let i := t.2.1 * W + t.2.2
      let nb := [st.1.getD (offset + i - W - 1) 0, st.1.getD (offset + i - W) 0,
        st.1.getD (offset + i - W + 1) 0, st.1.getD (offset + i - 1) 0,
        st.1.getD (offset + i) 0, st.1.getD (offset + i + 1) 0,
        st.1.getD (offset + i + W - 1) 0, st.1.getD (offset + i + W) 0,
        st.1.getD (offset + i + W + 1) 0]
      (st.1, st.2.set (offset + i)
        ((List.insertionSort (fun a b => a ≤ b) nb).getD 4 0)))
    (vol.data, vol.data)

/-- C9: every pipeline stage reads the input volume's array and writes only
its freshly allocated buffers: after any of the ten stages — histogram
equalization, CLAHE, gamma, sigmoid, Gaussian smoothing, unsharp mask,
histogram matching, bias-field correction, the 3D median filter, and the
(non-manual) segmentation scan — the input array component of the stage
state equals the original data; only the manual brush (`paintSphere`)
writes into an existing mask in place. -/
theorem stages_do_not_mutate_input (vol ref : VolumeData) (m : SegMethod)
    (t u clip strength : ℚ) (gamma gain cutoff : ℝ) :
    (histEqRun vol).src = vol.data ∧
    (histEqRun vol).dst.length = vol.data.length ∧
    (claheRun vol clip).1 = vol.data ∧
    (gammaRun vol gamma).1 = vol.data.map (fun q => (q : ℝ)) ∧
    (sigmoidRun vol gain cutoff).1 = vol.data.map (fun q => (q : ℝ)) ∧
    (gaussianRun vol).1 = vol.data ∧
    (unsharpRun vol strength).1 = vol.data ∧
    (histMatchRun vol ref).1 = vol.data ∧
    (n4BiasRun vol).1 = vol.data ∧
    (median3dRun vol).1 = vol.data ∧
    (segScanRun m t u vol).src = vol.data ∧
    (segScanRun m t u vol).dst.length = vol.data.length := by
  refine ⟨mapLoop_src _ _ _, mapLoop_dst_length _ _ _, ?_, ?_, ?_, ?_, ?_, ?_, ?_,
    ?_, mapLoop_src _ _ _, ?_⟩
  · unfold claheRun
    refine foldl_preserves_fst _ ?_ _ _
    intro st z
    refine foldl_preserves_fst _ ?_ _ _
    intro st2 k
    rfl
  · unfold gammaRun
    refine foldl_preserves_fst _ ?_ _ _
    intro st j
    rfl
  · unfold sigmoidRun
    refine foldl_preserves_fst _ ?_ _ _
    intro st j
    rfl
  · unfold gaussianRun
    rw [gaussPass_fst, gaussCopy_fst, gaussPass_fst, gaussCopy_fst, gaussPass_fst]
  · unfold unsharpRun
    refine Eq.trans (foldl_preserves_fst _ ?_ _ _) (foldl_preserves_fst _ ?_ _ _)
    · intro st i
      rfl
    · intro st i
      rfl
  · unfold histMatchRun
    refine foldl_preserves_fst _ ?_ _ _
    intro st i
    rfl
  · unfold n4BiasRun
    refine foldl_preserves_fst _ ?_ _ _
    intro st i
    rfl
  · unfold median3dRun
    refine foldl_preserves_fst _ ?_ _ _
    intro st t2
    rfl
  · rw [segScanRun, mapLoop_dst_length, List.length_replicate]

lemma segLabel_mem (m : SegMethod) (t u v : ℚ) :
    segLabel m t u v = 0 ∨ segLabel m t u v = 1 ∨ segLabel m t u v = 2 ∨
      segLabel m t u v = 3 := by
  cases m <;> simp only [segLabel] <;> split_ifs <;> norm_num

/-- C7 (amended): every mask produced by `runSegmentation` carries the fixed
range `min = 0`, `max = 255` — not the actual extrema of its data, whose
values always lie in `{0, 1, 2, 3}`. -/
theorem runSegmentation_min_max (m : SegMethod) (vol : VolumeData) (mT mU : ℚ) :
    (runSegmentation m vol mT mU).min = 0 ∧
    (runSegmentation m vol mT mU).max = 255 ∧
    (∀ v ∈ (runSegmentation m vol mT mU).data,
      v = 0 ∨ v = 1 ∨ v = 2 ∨ v = 3) := by
  refine ⟨rfl, rfl, ?_⟩
  intro v hv
  have hv2 : v ∈ (segScanRun m (resolveThresholds m vol mT mU).1
      (resolveThresholds m vol mT mU).2 vol).dst := hv
  obtain ⟨j, hj, hjv⟩ := List.mem_iff_getElem.mp hv2
  have hjlen : j < vol.data.length := by
    have := hj
    rw [segScanRun, mapLoop_dst_length, List.length_replicate] at this
    exact this
  have hd : (segScanRun m (resolveThresholds m vol mT mU).1
      (resolveThresholds m vol mT mU).2 vol).dst.getD j 0 =
      segLabel m (resolveThresholds m vol mT mU).1
        (resolveThresholds m vol mT mU).2 (vol.data.getD j 0) := by
    rw [segScanRun]
    exact mapLoop_dst_getD _ _ _ (List.length_replicate _ _) j hjlen
  rw [← hjv, ← List.getD_eq_getElem _ 0 hj, hd]
  exact segLabel_mem m _ _ _

/-- The concrete two-voxel volume used for the C7 counterexample and the
C10 witness. -/
def segVolC : VolumeData := ⟨⟨16⟩, [0, 10], (2, 1, 1), 0, 10⟩

/-- C7 counterexample: a binary segmentation of `segVolC` at threshold `5`
produces mask data `[0, 1]` but reports `max = 255`, a value not present in
the data (the true maximum present is `1`), refuting the claim that the
reported max is the greatest value actually present. -/
theorem runSegmentation_min_max_cex :
    (runSegmentation .binary segVolC 5 0).max = 255 ∧
    (runSegmentation .binary segVolC 5 0).data = [0, 1] ∧
    (255 : ℚ) ∉ (runSegmentation .binary segVolC 5 0).data := by
  refine ⟨rfl, by decide, by decide⟩

/-- C7 witness: the amended theorem applied at a concrete run. -/
theorem runSegmentation_min_max_witness :
    (runSegmentation .binary segVolC 5 0).min = 0 ∧
    (runSegmentation .binary segVolC 5 0).max = 255 ∧
    ((1 : ℚ) ∈ (runSegmentation .binary segVolC 5 0).data ∧
      ((1 : ℚ) = 0 ∨ (1 : ℚ) = 1 ∨ (1 : ℚ) = 2 ∨ (1 : ℚ) = 3)) := by
  have h := runSegmentation_min_max .binary segVolC 5 0
  have hmem : (1 : ℚ) ∈ (runSegmentation .binary segVolC 5 0).data := by decide
  exact ⟨h.1, h.2.1, hmem, h.2.2 1 hmem⟩

lemma histEqCdf_le_total (vol : VolumeData) (b : Fin 256) :
    histEqCdf vol b ≤ histEqTotal vol := by
  unfold histEqCdf histEqTotal
  apply Finset.sum_le_sum
  intro i _
  split
  · exact le_rfl
  · exact Nat.zero_le _

lemma histEqCdf_last (vol : VolumeData) : histEqCdf vol 255 = histEqTotal vol := by
  unfold histEqCdf histEqTotal
  apply Finset.sum_congr rfl
  intro i _
  rw [if_pos]
  rw [Fin.le_def]
  have := i.isLt
  omega

/-- C10 (amended): for `min < max` and a histogram with positive total
count, every voxel of the equalized output lies in `[min, max]`: the
CDF-normalized fraction lies in `[0, 1]` and the output is
`min + fraction * (max - min)`.  (When `min = max` the code substitutes
range `1` and the output can exceed `max`.) -/
theorem histEq_output_in_range (vol : VolumeData) (hlt : vol.min < vol.max)
    (hpos : 0 < histEqTotal vol) :
    ∀ j, j < vol.data.length →
      vol.min ≤ (histEqRun vol).dst.getD j 0 ∧
      (histEqRun vol).dst.getD j 0 ≤ vol.max := by
  intro j hj
  have hrange : (if vol.max - vol.min = 0 then 1 else vol.max - vol.min)
      = vol.max - vol.min := if_neg (sub_ne_zero.mpr (ne_of_gt hlt))
  have hd : (histEqRun vol).dst.getD j 0 =
      histEqStep vol.min (if vol.max - vol.min = 0 then 1 else vol.max - vol.min)
        (histEqCdf vol) (histEqCdf vol 255) (vol.data.getD j 0) := by
    unfold histEqRun
    exact mapLoop_dst_getD _ _ _ rfl j hj
  rw [hd]
  unfold histEqStep
  rw [hrange, histEqCdf_last]
  set b := clampBin ⌊(vol.data.getD j 0 - vol.min) / (vol.max - vol.min) * 255⌋
  have htotpos : (0 : ℚ) < (histEqTotal vol : ℚ) := by exact_mod_cast hpos
  have hfrac0 : (0 : ℚ) ≤ (histEqCdf vol b : ℚ) / (histEqTotal vol : ℚ) :=
    div_nonneg (Nat.cast_nonneg _) (le_of_lt htotpos)
  have hfrac1 : (histEqCdf vol b : ℚ) / (histEqTotal vol : ℚ) ≤ 1 := by
    rw [div_le_one htotpos]
    exact_mod_cast histEqCdf_le_total vol b
  have hsub : (0 : ℚ) ≤ vol.max - vol.min := by linarith
  have hm0 : (0 : ℚ) ≤ (histEqCdf vol b : ℚ) / (histEqTotal vol : ℚ)
      * (vol.max - vol.min) := mul_nonneg hfrac0 hsub
  have hm1 : (histEqCdf vol b : ℚ) / (histEqTotal vol : ℚ) * (vol.max - vol.min)
      ≤ vol.max - vol.min := mul_le_of_le_one_left hsub hfrac1
  constructor
  · linarith
  · linarith

/-- The degenerate constant volume (`min = max = 5`) used for the C10
counterexample. -/
def volFlat : VolumeData := ⟨⟨16⟩, [5], (1, 1, 1), 5, 5⟩

lemma volFlat_hist (b : Fin 256) :
    (getHistogram volFlat.data volFlat.min volFlat.max).1 b
      = if b = 0 then 1 else 0 := by
  show (getHistogram [5] 5 5).1 b = _
  unfold getHistogram
  rw [visitedSamples_stride_one _ (by norm_num [histStride])]
  have hb : ⌊((5 : ℚ) - 5) * binWidthOf 5 5⌋ = 0 := by norm_num [binWidthOf]
  simp only [List.countP_cons, List.countP_nil, hb]
  by_cases h0 : b = 0
  · subst h0
    norm_num
  · rw [if_neg h0]
    have hne : ¬((0 : ℤ) = ((b : ℕ) : ℤ)) := by
      intro h
      exact h0 (Fin.ext (by omega))
    simp [hne]

lemma volFlat_total : histEqTotal volFlat = 1 := by
  unfold histEqTotal
  rw [Finset.sum_congr rfl (fun b _ => volFlat_hist b)]
  simp

lemma volFlat_cdf (b : Fin 256) : histEqCdf volFlat b = 1 := by
  unfold histEqCdf
  have hterm : ∀ i : Fin 256,
      (if i ≤ b then (getHistogram volFlat.data volFlat.min volFlat.max).1 i else 0)
        = if i = 0 then 1 else 0 := by
    intro i
    by_cases h0 : i = 0
    · subst h0
      rw [if_pos (Fin.zero_le b), volFlat_hist, if_pos rfl]
    · by_cases hle : i ≤ b
      · rw [if_pos hle, volFlat_hist, if_neg h0]
      · rw [if_neg hle, if_neg h0]
  rw [Finset.sum_congr rfl (fun i _ => hterm i)]
  simp

/-- C10 counterexample: on the constant volume `volFlat` (`min = max = 5`,
positive histogram total) the equalized output voxel is `6`, outside the
volume's `[min, max] = [5, 5]`: the code substitutes range `1` for the zero
range and adds the full CDF fraction to `min`. -/
theorem histEq_output_in_range_cex :
    volFlat.min = 5 ∧ volFlat.max = 5 ∧
    0 < histEqTotal volFlat ∧
    (histEqRun volFlat).dst.getD 0 0 = 6 ∧
    ¬((histEqRun volFlat).dst.getD 0 0 ≤ volFlat.max) := by
  have hout : (histEqRun volFlat).dst.getD 0 0 = 6 := by
    have hd : (histEqRun volFlat).dst.getD 0 0 =
        histEqStep volFlat.min
          (if volFlat.max - volFlat.min = 0 then 1 else volFlat.max - volFlat.min)
          (histEqCdf volFlat) (histEqCdf volFlat 255) (volFlat.data.getD 0 0) := by
      unfold histEqRun
      exact mapLoop_dst_getD _ _ _ rfl 0 (by norm_num [volFlat])
    rw [hd]
    unfold histEqStep
    rw [volFlat_cdf, volFlat_cdf]
    show (5 : ℚ) + ((1 : ℕ) : ℚ) / ((1 : ℕ) : ℚ)
      * (if (5 : ℚ) - 5 = 0 then 1 else (5 : ℚ) - 5) = 6
    norm_num
  refine ⟨rfl, rfl, ?_, hout, ?_⟩
  · rw [volFlat_total]
    norm_num
  · rw [hout]
    show ¬((6 : ℚ) ≤ 5)
    norm_num

/-- C10 witness: the amended theorem applied at a concrete volume with
`min < max`. -/
theorem histEq_output_in_range_witness :
    segVolC.min < segVolC.max ∧ 0 < histEqTotal segVolC ∧
    segVolC.min ≤ (histEqRun segVolC).dst.getD 0 0 ∧
    (histEqRun segVolC).dst.getD 0 0 ≤ segVolC.max := by
  have h1 : segVolC.min < segVolC.max := by norm_num [segVolC]
  have h2 : 0 < histEqTotal segVolC := by
    unfold histEqTotal
    rw [histogram_sum_core segVolC.data segVolC.min segVolC.max h1]
    decide
  have h3 := histEq_output_in_range segVolC h1 h2 0 (by norm_num [segVolC])
  exact ⟨h1, h2, h3.1, h3.2⟩

/-! ## Range of the Li threshold (C5) -/

lemma liWB_nonneg (h : Fin 256 → ℕ) (t : ℤ) : 0 ≤ liWB h t := by
  apply Finset.sum_nonneg
  intro i _
  split
  · exact Nat.cast_nonneg _
  · exact le_rfl

lemma liWF_nonneg (h : Fin 256 → ℕ) (t : ℤ) : 0 ≤ liWF h t := by
  apply Finset.sum_nonneg
  intro i _
  split
  · exact Nat.cast_nonneg _
  · exact le_rfl

lemma liSB_nonneg (h : Fin 256 → ℕ) (t : ℤ) : 0 ≤ liSB h t := by
  apply Finset.sum_nonneg
  intro i _
  split
  · exact mul_nonneg (Nat.cast_nonneg _) (Nat.cast_nonneg _)
  · exact le_rfl

lemma liSF_nonneg (h : Fin 256 → ℕ) (t : ℤ) : 0 ≤ liSF h t := by
  apply Finset.sum_nonneg
  intro i _
  split
  · exact mul_nonneg (Nat.cast_nonneg _) (Nat.cast_nonneg _)
  · exact le_rfl

lemma liSB_le (h : Fin 256 → ℕ) (t : ℤ) :
    liSB h t ≤ (t : ℚ) * liWB h t := by
  unfold liSB liWB
  rw [Finset.mul_sum]
  apply Finset.sum_le_sum
  intro i _
  by_cases hc : ((i : ℕ) : ℤ) ≤ t
  · rw [if_pos hc, if_pos hc]
    apply mul_le_mul_of_nonneg_right _ (Nat.cast_nonneg _)
    have : ((i : ℕ) : ℚ) ≤ ((t : ℤ) : ℚ) := by exact_mod_cast hc
    exact_mod_cast this
  · rw [if_neg hc, if_neg hc, mul_zero]

lemma liSF_ge (h : Fin 256 → ℕ) (t : ℤ) :
    ((t : ℚ) + 1) * liWF h t ≤ liSF h t := by
  unfold liSF liWF
  rw [Finset.mul_sum]
  apply Finset.sum_le_sum
  intro i _
  by_cases hc : t < ((i : ℕ) : ℤ)
  · rw [if_pos hc, if_pos hc]
    apply mul_le_mul_of_nonneg_right _ (Nat.cast_nonneg _)
    have : ((t : ℤ) : ℚ) + 1 ≤ ((i : ℕ) : ℚ) := by exact_mod_cast hc
    exact_mod_cast this
  · rw [if_neg hc, if_neg hc, mul_zero]

lemma liSF_le (h : Fin 256 → ℕ) (t : ℤ) : liSF h t ≤ 255 * liWF h t := by
  unfold liSF liWF
  rw [Finset.mul_sum]
  apply Finset.sum_le_sum
  intro i _
  by_cases hc : t < ((i : ℕ) : ℤ)
  · rw [if_pos hc, if_pos hc]
    apply mul_le_mul_of_nonneg_right _ (Nat.cast_nonneg _)
    have hi := i.isLt
    have : ((i : ℕ) : ℚ) ≤ 255 := by exact_mod_cast Nat.le_of_lt_succ hi
    exact this
  · rw [if_neg hc, if_neg hc, mul_zero]

/-- The logarithmic mean `(b - a) / (log b - log a)` of `0 < a < b` lies
between `a` and `b`. -/
lemma logMean_bounds (a b : ℝ) (ha : 0 < a) (hab : a < b) :
    a ≤ (b - a) / (Real.log b - Real.log a) ∧
    (b - a) / (Real.log b - Real.log a) ≤ b := by
  have hb : 0 < b := lt_trans ha hab
  have hba : 0 < b - a := sub_pos.mpr hab
  have hlog : Real.log b - Real.log a = Real.log (b / a) :=
    (Real.log_div (ne_of_gt hb) (ne_of_gt ha)).symm
  have hba1 : 1 < b / a := (one_lt_div ha).mpr hab
  have hlogpos : 0 < Real.log (b / a) := Real.log_pos hba1
  have hupper : Real.log (b / a) ≤ (b - a) / a := by
    have h1 := Real.log_le_sub_one_of_pos (div_pos hb ha)
    have e : b / a - 1 = (b - a) / a := by field_simp
    rw [e] at h1
    exact h1
  have hlower : (b - a) / b ≤ Real.log (b / a) := by
    have h2 := Real.log_le_sub_one_of_pos (div_pos ha hb)
    have e2 : Real.log (a / b) = -Real.log (b / a) := by
      rw [Real.log_div (ne_of_gt ha) (ne_of_gt hb),
        Real.log_div (ne_of_gt hb) (ne_of_gt ha)]
      ring
    have e3 : a / b - 1 = -((b - a) / b) := by field_simp
    rw [e2, e3] at h2
    linarith
  rw [hlog]
  constructor
  · rw [le_div_iff₀ hlogpos]
    calc a * Real.log (b / a) ≤ a * ((b - a) / a) :=
          mul_le_mul_of_nonneg_left hupper (le_of_lt ha)
    _ = b - a := by field_simp
  · rw [div_le_iff₀ hlogpos]
    calc b - a = b * ((b - a) / b) := by field_simp
    _ ≤ b * Real.log (b / a) := mul_le_mul_of_nonneg_left hlower (le_of_lt hb)

/-- `Math.round` of a value in `[0, 255]` lies in `[0, 255]`. -/
lemma round_mem_Icc {α : Type} [LinearOrderedField α] [FloorRing α] (x : α)
    (h0 : 0 ≤ x) (h255 : x ≤ 255) : round x ∈ Set.Icc (0 : ℤ) 255 := by
  rw [Set.mem_Icc, round_eq]
  constructor
  · rw [Int.le_floor]
    push_cast
    linarith
  · have : ⌊x + 1 / 2⌋ < 256 := by
      rw [Int.floor_lt]
      push_cast
      linarith
    omega

lemma liUpdate_mem (h : Fin 256 → ℕ) (t : ℤ)
    (hB : liWB h t ≠ 0) (hF : liWF h t ≠ 0) :
    liUpdate h t ∈ Set.Icc (0 : ℤ) 255 := by
  unfold liUpdate
  by_cases hz : liSB h t / liWB h t = 0 ∨ liSF h t / liWF h t = 0
  · rw [if_pos hz]
    rw [Set.mem_Icc]
    exact ⟨le_rfl, by norm_num⟩
  · rw [if_neg hz]
    push_neg at hz
    obtain ⟨hmB0, hmF0⟩ := hz
    have hwBpos : 0 < liWB h t := lt_of_le_of_ne (liWB_nonneg h t) (Ne.symm hB)
    have hwFpos : 0 < liWF h t := lt_of_le_of_ne (liWF_nonneg h t) (Ne.symm hF)
    have hmBnn : 0 ≤ liSB h t / liWB h t :=
      div_nonneg (liSB_nonneg h t) (le_of_lt hwBpos)
    have hmBpos : 0 < liSB h t / liWB h t := lt_of_le_of_ne hmBnn (Ne.symm hmB0)
    have hmBle : liSB h t / liWB h t ≤ (t : ℚ) :=
      (div_le_iff₀ hwBpos).mpr (liSB_le h t)
    have hmFge : ((t : ℚ) + 1) ≤ liSF h t / liWF h t :=
      (le_div_iff₀ hwFpos).mpr (liSF_ge h t)
    have hmFle : liSF h t / liWF h t ≤ 255 :=
      (div_le_iff₀ hwFpos).mpr (liSF_le h t)
    have hlt : liSB h t / liWB h t < liSF h t / liWF h t := by linarith
    have hltR : ((liSB h t / liWB h t : ℚ) : ℝ) < ((liSF h t / liWF h t : ℚ) : ℝ) := by
      exact_mod_cast hlt
    have hposR : (0 : ℝ) < ((liSB h t / liWB h t : ℚ) : ℝ) := by exact_mod_cast hmBpos
    obtain ⟨hl, hu⟩ := logMean_bounds _ _ hposR hltR
    apply round_mem_Icc
    · linarith
    · have h255 : ((liSF h t / liWF h t : ℚ) : ℝ) ≤ 255 := by exact_mod_cast hmFle
      linarith

lemma liIter_mem (h : Fin 256 → ℕ) (fuel : ℕ) (t : ℤ)
    (ht : t ∈ Set.Icc (0 : ℤ) 255) : liIter h fuel t ∈ Set.Icc (0 : ℤ) 255 := by
  induction fuel generalizing t with
  | zero =>
    rw [liIter]
    exact ht
  | succ fuel ih =>
    rw [liIter]
    by_cases hw : liWB h t = 0 ∨ liWF h t = 0
    · rw [if_pos hw]
      exact ht
    · rw [if_neg hw]
      push_neg at hw
      by_cases heq : liUpdate h t = t
      · simp only [heq, if_pos]
        exact ht
      · rw [if_neg heq]
        exact ih _ (liUpdate_mem h t hw.1 hw.2)

lemma liMean_mem (h : Fin 256 → ℕ) (total : ℕ)
    (htot : total = ∑ i : Fin 256, h i) (hpos : 0 < total) :
    round ((∑ i : Fin 256, ((i : ℕ) : ℚ) * (h i : ℚ)) / (total : ℚ))
      ∈ Set.Icc (0 : ℤ) 255 := by
  have hTpos : (0 : ℚ) < (total : ℚ) := by exact_mod_cast hpos
  have hnum0 : 0 ≤ ∑ i : Fin 256, ((i : ℕ) : ℚ) * (h i : ℚ) := by
    apply Finset.sum_nonneg
    intro i _
    exact mul_nonneg (Nat.cast_nonneg _) (Nat.cast_nonneg _)
  have hcast : (total : ℚ) = ∑ i : Fin 256, (h i : ℚ) := by
    rw [htot]
    push_cast
    rfl
  have hnum255 : ∑ i : Fin 256, ((i : ℕ) : ℚ) * (h i : ℚ)
      ≤ 255 * (total : ℚ) := by
    rw [hcast, Finset.mul_sum]
    apply Finset.sum_le_sum
    intro i _
    apply mul_le_mul_of_nonneg_right _ (Nat.cast_nonneg _)
    have hi := i.isLt
    exact_mod_cast Nat.le_of_lt_succ hi
  apply round_mem_Icc
  · exact div_nonneg hnum0 (le_of_lt hTpos)
  · rw [div_le_iff₀ hTpos]
    linarith

/-- C5: for a 256-bin histogram with positive total count (`total` being the
histogram's own sum, as the callers pass it), the Li solver — initialized at
`round(mean)`, updated by `round((mF - mB) / (ln mF - ln mB))`, stopping at a
fixpoint, a zero-weight partition, or 50 iterations — returns a threshold in
`[0, 255]`. -/
theorem computeLiThreshold_range (h : Fin 256 → ℕ) (total : ℕ)
    (htot : total = ∑ i : Fin 256, h i) (hpos : 0 < total) :
    computeLiThreshold h total ∈ Set.Icc (0 : ℤ) 255 := by
  unfold computeLiThreshold
  exact liIter_mem h 50 _ (liMean_mem h total htot hpos)

/-- C5 witness: the theorem applied to the uniform histogram. -/
theorem computeLiThreshold_range_witness :
    ((256 : ℕ) = ∑ _i : Fin 256, 1) ∧ (0 < (256 : ℕ)) ∧
    computeLiThreshold (fun _ => 1) 256 ∈ Set.Icc (0 : ℤ) 255 :=
  ⟨by simp, by norm_num,
    computeLiThreshold_range (fun _ => 1) 256 (by simp) (by norm_num)⟩

end NeuroScan
